import Mathlib

/-!
# Verification of the Reishandy_PathFindMove pathfinding plugin

Shallow embedding of `src/plugins/Reishandy_PathFindMove.js`:
the bounded A* search (`findPath`), neighbor generation (`getNeighbors`),
the nearest-reachable-point fallback (`findClosestAccessiblePoint`), and the
per-tick session state machine (`startPathfinding` / `updatePathfinding`).

The host engine (RPG Maker MZ) is an external collaborator: its map/grid
query service is embedded as an abstract `Grid` record of passability
oracles, and the handful of engine character methods the plugin calls
(`canPass`, `moveStraight`, `findDirectionTo`, `isMoving`) are modelled from
the spec where noted.  JavaScript numbers used here are always integer grid
coordinates and non-negative counters, embedded as `Int` / `Nat`.
-/

namespace PathFindMove

/-- A grid cell: an integer coordinate pair, equality by coordinate. -/
structure Cell where
  x : Int
  y : Int
deriving DecidableEq, Repr

/-- The host's GridQuery collaborator: map dimensions plus the two
passability oracles the plugin consults. `isPassable x y d` embeds
`$gameMap.isPassable(x, y, d)` (static terrain passability of the edge
leaving `(x, y)` in compass direction `d`), `canPass x y d` embeds the
mover's `this.canPass(x, y, d)` occupant-aware check as observed during one
search call. Directions use the engine's numpad encoding:
8 = up, 6 = right, 2 = down, 4 = left. -/
structure Grid where
  width : Nat
  height : Nat
  isPassable : Int → Int → Nat → Bool
  canPass : Int → Int → Nat → Bool

/-- The in-bounds test `x >= 0 && x < $gameMap.width() && y >= 0 && y < $gameMap.height()`. -/
def Grid.inBounds (g : Grid) (x y : Int) : Bool :=
  decide (0 ≤ x) && decide (x < (g.width : Int)) &&
  decide (0 ≤ y) && decide (y < (g.height : Int))

/-- `Math.abs(a.x - b.x) + Math.abs(a.y - b.y)`, the Manhattan distance. -/
def manhattan (a b : Cell) : Nat :=
  (a.x - b.x).natAbs + (a.y - b.y).natAbs

/-- An A* search node `{x, y, g, h, f, parent}`.  The JS `parent` pointer
chain is embedded as the reconstructed chain itself: `path` lists the cells
from the start node down to this node (the exact list the JS path
reconstruction `while (node) { path.unshift(...); node = node.parent }`
would produce at this node), so `parent = none` corresponds to
`path = [cell]`. -/
structure Node where
  x : Int
  y : Int
  g : Nat
  h : Nat
  f : Nat
  path : List Cell
deriving DecidableEq, Repr

/-- The cell of a node. -/
def Node.cell (n : Node) : Cell := ⟨n.x, n.y⟩

/-- The `directions` table of `getNeighbors`: (dx, dy, numpad direction),
in source order up, right, down, left. -/
def directions : List (Int × Int × Nat) :=
  [(0, -1, 8), (1, 0, 6), (0, 1, 2), (-1, 0, 4)]

/-- `Game_Character.prototype.getNeighbors`: the in-bounds 4-neighbors of
`node` whose connecting edge satisfies
`mapPassable && (characterPassable || allowThrough)`. -/
def getNeighbors (grid : Grid) (node : Cell) (allowThrough : Bool) : List Cell :=
  directions.filterMap fun d =>
    let x := node.x + d.1
    let y := node.y + d.2.1
    if grid.inBounds x y then
      let mapPassable := grid.isPassable node.x node.y d.2.2
      let characterPassable := grid.canPass node.x node.y d.2.2
      if mapPassable && (characterPassable || allowThrough) then some ⟨x, y⟩ else none
    else none

/-- `openList.reduce((prev, curr) => prev.f < curr.f ? prev : curr)`:
the open-list member with lowest `f`; on ties the later element wins. -/
def lowestF (head : Node) (tail : List Node) : Node :=
  tail.foldl (fun prev curr => if prev.f < curr.f then prev else curr) head

/-- `openList.splice(openList.indexOf(currentNode), 1)`: removal of the
popped node.  The open list never holds two nodes with the same cell (a new
node is pushed only when `openList.find` fails), so removing the first node
carrying the popped node's cell removes exactly the popped node. -/
def removeNode : List Node → Cell → List Node
  | [], _ => []
  | n :: rest, c => if n.cell = c then rest else n :: removeNode rest c

/-- The open-list relaxation
`if (existingNode) { if (g < existingNode.g) { existingNode.g = g; existingNode.f = f; existingNode.parent = currentNode; } }`:
the first open node at the neighbor's cell gets its `g`, `f` and parent
chain replaced when the tentative `g` is strictly smaller. -/
def relaxFirst (g f : Nat) (p : List Cell) (neighbor : Cell) : List Node → List Node
  | [] => []
  | node :: rest =>
    if node.x = neighbor.x ∧ node.y = neighbor.y then
      (if g < node.g then { node with g := g, f := f, path := p } else node) :: rest
    else node :: relaxFirst g f p neighbor rest

/-- The body of the `for (const neighbor of neighbors)` loop of `findPath`:
skip a neighbor already closed; otherwise relax it if already open, or push
`{...neighbor, g, h, f, parent: currentNode}` as a new open node. -/
def processNeighbor (target : Cell) (currentNode : Node) (closedList : List Node)
    (openList : List Node) (neighbor : Cell) : List Node :=
  if closedList.any fun node => node.x == neighbor.x && node.y == neighbor.y then
    openList
  else
    let g := currentNode.g + 1
    let h := manhattan neighbor target
    let f := g + h
    if openList.any fun node => node.x == neighbor.x && node.y == neighbor.y then
      relaxFirst g f (currentNode.path ++ [neighbor]) neighbor openList
    else
      openList ++ [{ x := neighbor.x, y := neighbor.y, g := g, h := h, f := f,
                     path := currentNode.path ++ [neighbor] }]

/-- The `while (openList.length > 0 && iterations < MAX_ITERATIONS)` loop of
`findPath`.  The fuel argument is the number of iterations still allowed,
initially `MAX_ITERATIONS`; `iterations++` happens at the top of the loop
body so each recursive call spends one unit. -/
def findPathLoop (grid : Grid) (target : Cell) (allowThrough : Bool) :
    Nat → List Node → List Node → List Cell
  | 0, _, _ => []
  | _ + 1, [], _ => []
  | fuel + 1, first :: rest, closedList =>
    let currentNode := lowestF first rest
    if currentNode.x = target.x ∧ currentNode.y = target.y then
      currentNode.path
    else
      let openList := removeNode (first :: rest) currentNode.cell
      let closedList := closedList ++ [currentNode]
      let neighbors := getNeighbors grid currentNode.cell allowThrough
      let openList := neighbors.foldl (processNeighbor target currentNode closedList) openList
      findPathLoop grid target allowThrough fuel openList closedList

/-- `Game_Character.prototype.findPath(targetX, targetY, allowThrough)` run
by a mover standing at `start`, with the plugin's `MAX_ITERATIONS`
parameter made explicit.  Returns the reconstructed start-inclusive cell
sequence, or `[]` (the NotFound sentinel) when the open set empties or the
iteration cap is reached. -/
def findPath (grid : Grid) (start target : Cell) (allowThrough : Bool)
    (maxIterations : Nat) : List Cell :=
  let startNode : Node := { x := start.x, y := start.y, g := 0, h := 0, f := 0, path := [start] }
  findPathLoop grid target allowThrough maxIterations [startNode] []

/-- The world visible to one tick of the session: the GridQuery
collaborator, the plugin's `MaxIteration` parameter and the global
`ThroughIfHardBlocked` policy.  The grid oracles may legitimately differ
from tick to tick (the engine world is mutable between ticks). -/
structure World where
  grid : Grid
  maxIterations : Nat
  throughIfHardBlocked : Bool

/-- The per-agent state the plugin reads and writes: the engine character's
position and `_through` flag plus the ad hoc `_pathfinding*` session fields
the plugin attaches. -/
structure Character where
  x : Int
  y : Int
  through : Bool
  pathfindingTarget : Option Cell
  pathfindingPath : Option (List Cell)
  pathfindingIndex : Nat
  recalculateIfBlocked : Bool
  pathfindingStuckCount : Nat
  originalThrough : Bool
  forcingThrough : Bool
deriving DecidableEq, Repr

/-- Modelled from the spec: the engine method `Game_Character.canPass`
consulted by `getNeighbors` is mover-specific — a character whose
`_through` flag is set passes every edge, otherwise the grid's
occupant-aware oracle decides.  `findPath` therefore searches the grid with
`canPass` widened by the mover's current through flag. -/
def Character.effectiveGrid (w : World) (c : Character) : Grid :=
  { w.grid with canPass := fun x y d => c.through || w.grid.canPass x y d }

/-- `this.findPath(targetX, targetY, allowThrough)` as invoked by the
session code: a search from the character's current cell over its
effective grid, bounded by the plugin's `MaxIteration` parameter. -/
def Character.findPathFrom (w : World) (c : Character) (targetX targetY : Int)
    (allowThrough : Bool) : List Cell :=
  findPath (c.effectiveGrid w) ⟨c.x, c.y⟩ ⟨targetX, targetY⟩ allowThrough w.maxIterations

/-- The `(dx, dy)` offsets of the two nested
`for (dx = -radius; dx <= radius; dx++) for (dy = -radius; dy <= radius; dy++)`
loops of `findClosestAccessiblePoint`, kept only when
`Math.abs(dx) + Math.abs(dy) === radius`, in source iteration order. -/
def ringOffsets (radius : Nat) : List (Int × Int) :=
  (List.range (2 * radius + 1)).flatMap fun (i : Nat) =>
    (List.range (2 * radius + 1)).filterMap fun (j : Nat) =>
      let dx : Int := (i : Int) - (radius : Int)
      let dy : Int := (j : Int) - (radius : Int)
      if dx.natAbs + dy.natAbs = radius then some (dx, dy) else none

/-- The body of the candidate loop of `findClosestAccessiblePoint`: check
bounds, run the full (allowThrough = false) search, and keep the candidate
when its true Manhattan distance beats `closestDistance`; the accumulator
holds `(closestPoint, closestDistance)` and `none` embeds the initial
`null` / `Number.MAX_VALUE`. -/
def ringCandidateStep (w : World) (c : Character) (targetX targetY : Int)
    (acc : Option Cell × Option Nat) (d : Int × Int) : Option Cell × Option Nat :=
  let x := targetX + d.1
  let y := targetY + d.2
  if w.grid.inBounds x y then
    let path := c.findPathFrom w x y false
    if 0 < path.length then
      let distance := (x - targetX).natAbs + (y - targetY).natAbs
      if match acc.2 with
         | none => true
         | some best => decide (distance < best) then
        (some ⟨x, y⟩, some distance)
      else acc
    else acc
  else acc

/-- One radius iteration of `findClosestAccessiblePoint`: scan the ring's
candidates with `ringCandidateStep`. -/
def scanRing (w : World) (c : Character) (targetX targetY : Int) (radius : Nat)
    (acc : Option Cell × Option Nat) : Option Cell × Option Nat :=
  (ringOffsets radius).foldl (ringCandidateStep w c targetX targetY) acc

/-- Specification helper: ring `radius` around the (unreachable) target
holds an in-bounds candidate that a full `allowThrough = false` search can
reach from the character. -/
def ringHasReachable (w : World) (c : Character) (targetX targetY : Int)
    (radius : Nat) : Prop :=
  ∃ d ∈ ringOffsets radius,
    w.grid.inBounds (targetX + d.1) (targetY + d.2) = true ∧
    0 < (c.findPathFrom w (targetX + d.1) (targetY + d.2) false).length

/-- Specification helper: the first reachable in-bounds offset of ring
`radius` in the source's scan order. -/
def ringFirstHit (w : World) (c : Character) (targetX targetY : Int)
    (radius : Nat) : Option (Int × Int) :=
  (ringOffsets radius).find? fun d =>
    w.grid.inBounds (targetX + d.1) (targetY + d.2) &&
    decide (0 < (c.findPathFrom w (targetX + d.1) (targetY + d.2) false).length)

/-- The `for (let radius = 0; radius <= maxRadius; radius++)` loop of
`findClosestAccessiblePoint`: after each radius, return `closestPoint` if
one was found; after the last radius, return `null`.  The first argument
counts the radii still to scan. -/
def findClosestLoop (w : World) (c : Character) (targetX targetY : Int) :
    Nat → Nat → Option Cell × Option Nat → Option Cell
  | 0, _, _ => none
  | n + 1, radius, acc =>
    let acc := scanRing w c targetX targetY radius acc
    match acc.1 with
    | some p => some p
    | none => findClosestLoop w c targetX targetY n (radius + 1) acc

/-- `Game_Character.prototype.findClosestAccessiblePoint(targetX, targetY)`
with its hard-coded `maxRadius = 5` (radii 0 through 5). -/
def Character.findClosestAccessiblePoint (w : World) (c : Character)
    (targetX targetY : Int) : Option Cell :=
  findClosestLoop w c targetX targetY 6 0 (none, none)

/-- `Game_Character.prototype.startPathfinding(targetX, targetY, recalculateIfBlocked)`.
Sets the target, searches, falls back to the nearest accessible point when
the direct search fails, and initializes the session counters.  The JS
function also `return true`, an unused value not embedded. -/
def Character.startPathfinding (w : World) (c : Character) (targetX targetY : Int)
    (recalculateIfBlocked : Bool) : Character :=
  let c1 := { c with pathfindingTarget := some ⟨targetX, targetY⟩ }
  let path0 := c1.findPathFrom w targetX targetY false
  let path1 :=
    if path0.length = 0 then
      match c1.findClosestAccessiblePoint w targetX targetY with
      | some closestPoint => c1.findPathFrom w closestPoint.x closestPoint.y false
      | none => path0
    else path0
  { c1 with pathfindingPath := some path1, pathfindingIndex := 0,
            recalculateIfBlocked := recalculateIfBlocked,
            pathfindingStuckCount := 0,
            originalThrough := c.through, forcingThrough := false }

/-- The x-offset of one step in numpad direction `d`. -/
def dirOffsetX (d : Nat) : Int := if d = 6 then 1 else if d = 4 then -1 else 0

/-- The y-offset of one step in numpad direction `d`. -/
def dirOffsetY (d : Nat) : Int := if d = 2 then 1 else if d = 8 then -1 else 0

/-- Modelled from the spec: the engine method
`Game_Character.findDirectionTo(goalX, goalY)` — missing from this
repository — computes a compass direction toward the goal cell and returns
`0` when the character is already there (for the adjacent cells the session
feeds it, the single cardinal direction of the step). -/
def Character.findDirectionTo (c : Character) (goalX goalY : Int) : Nat :=
  if c.x < goalX then 6
  else if goalX < c.x then 4
  else if c.y < goalY then 2
  else if goalY < c.y then 8
  else 0

/-- Modelled from the spec: the engine method `Game_Character.canPass(x, y, d)`
at the character's own cell — missing from this repository — is the
"normal passability" check of §4.4: map passability of the edge plus the
occupant check, with a set `_through` flag passing everything. -/
def Character.canPass (w : World) (c : Character) (d : Nat) : Bool :=
  c.through || (w.grid.isPassable c.x c.y d && w.grid.canPass c.x c.y d)

/-- Modelled from the spec: the MovementDriver's
`Game_Character.moveStraight(d)` — missing from this repository — performs
the single grid step when the edge is passable for the character, moving it
one cell in direction `d` (the engine updates the logical position at once
and animates afterwards). -/
def Character.moveStraight (w : World) (c : Character) (d : Nat) : Character :=
  if c.canPass w d then { c with x := c.x + dirOffsetX d, y := c.y + dirOffsetY d } else c

/-- `Game_Character.prototype.updatePathfinding`, one per-tick `advance()`
call.  `isMoving` is the engine's `this.isMoving()` (mid-animation flag),
an input of the tick.  Returns the updated character together with the move
command issued this tick (`some d` when `moveStraight(d)` was called,
`none` otherwise). -/
def Character.updatePathfinding (w : World) (isMoving : Bool) (c : Character) :
    Character × Option Nat :=
  match c.pathfindingTarget with
  | none => (c, none)
  | some target =>
    match c.pathfindingPath with
    | none =>
      ({ c with pathfindingPath := none, pathfindingTarget := none,
                through := c.originalThrough, forcingThrough := false }, none)
    | some path =>
      if path.length ≤ c.pathfindingIndex then
        ({ c with pathfindingPath := none, pathfindingTarget := none,
                  through := c.originalThrough, forcingThrough := false }, none)
      else if isMoving then (c, none)
      else
        let nextNode := path.getD c.pathfindingIndex ⟨0, 0⟩
        if c.x = nextNode.x ∧ c.y = nextNode.y then
          let c1 := { c with pathfindingIndex := c.pathfindingIndex + 1,
                             pathfindingStuckCount := 0 }
          if c1.forcingThrough then
            ({ c1 with through := c1.originalThrough, forcingThrough := false }, none)
          else (c1, none)
        else
          let direction := c.findDirectionTo nextNode.x nextNode.y
          if 0 < direction then
            if c.canPass w direction then
              ({ c.moveStraight w direction with pathfindingStuckCount := 0 }, some direction)
            else
              let c1 := { c with pathfindingStuckCount := c.pathfindingStuckCount + 1 }
              if 3 ≤ c1.pathfindingStuckCount ∧ c1.recalculateIfBlocked then
                let newPath := c1.findPathFrom w target.x target.y false
                if 0 < newPath.length then
                  ({ c1 with pathfindingPath := some newPath, pathfindingIndex := 0,
                             pathfindingStuckCount := 0, through := c1.originalThrough,
                             forcingThrough := false }, none)
                else if w.throughIfHardBlocked then
                  let c2 := { c1 with forcingThrough := true, through := true }
                  ({ c2.moveStraight w direction with pathfindingStuckCount := 0 },
                   some direction)
                else (c1, none)
              else (c1, none)
          else (c, none)

/-- How one `findPath` call ended: goal popped with its reconstructed path,
open set emptied, or the iteration cap reached. -/
inductive SearchOutcome where
  | found (path : List Cell)
  | exhaustedOpen
  | iterationCap
deriving DecidableEq, Repr

/-- Instrumented copy of `findPathLoop` that also reports how the loop
ended and how many iterations of the loop body were executed. -/
def findPathRun (grid : Grid) (target : Cell) (allowThrough : Bool) :
    Nat → List Node → List Node → SearchOutcome × Nat
  | 0, _, _ => (.iterationCap, 0)
  | _ + 1, [], _ => (.exhaustedOpen, 0)
  | fuel + 1, first :: rest, closedList =>
    let currentNode := lowestF first rest
    if currentNode.x = target.x ∧ currentNode.y = target.y then
      (.found currentNode.path, 1)
    else
      let openList := removeNode (first :: rest) currentNode.cell
      let closedList := closedList ++ [currentNode]
      let neighbors := getNeighbors grid currentNode.cell allowThrough
      let openList := neighbors.foldl (processNeighbor target currentNode closedList) openList
      let r := findPathRun grid target allowThrough fuel openList closedList
      (r.1, r.2 + 1)

/-- The obstacle-free rectangular grid: every edge passable for the map and
for the mover. -/
def freeGrid (w h : Nat) : Grid :=
  { width := w, height := h, isPassable := fun _ _ _ => true, canPass := fun _ _ _ => true }

/-- Adjacency chain: consecutive cells of the list are Manhattan distance 1
apart (a 4-connected grid walk). -/
def IsWalk : List Cell → Prop
  | [] => True
  | [_] => True
  | a :: b :: rest => manhattan a b = 1 ∧ IsWalk (b :: rest)

/-- One cardinal step from `a` toward `b`, x-axis first: the canonical
geodesic step used in the optimality argument. -/
def stepToward (a b : Cell) : Cell :=
  if a.x < b.x then ⟨a.x + 1, a.y⟩
  else if b.x < a.x then ⟨a.x - 1, a.y⟩
  else if a.y < b.y then ⟨a.x, a.y + 1⟩
  else ⟨a.x, a.y - 1⟩

/-- The cells carried by a node list. -/
def cellsOf (l : List Node) : List Cell := l.map Node.cell

/-- Sanity of one A* node of a search from `s` toward `t`: its `f` is
`g + h(cell)` — except for the hand-built start node whose `h` and `f` are
hard-coded 0 — and its parent chain is a recorded walk from `s` to the
node's cell of length `g + 1` that stays on the map. -/
structure NodeOK (grid : Grid) (s t : Cell) (n : Node) : Prop where
  fval : n.f = n.g + manhattan n.cell t ∨ (n.cell = s ∧ n.g = 0 ∧ n.f = 0)
  walk : IsWalk n.path
  headOK : n.path.head? = some s
  lastOK : n.path.getLast? = some n.cell
  lenOK : n.path.length = n.g + 1
  boundsOK : ∀ q ∈ n.path, grid.inBounds q.x q.y = true

/-- The loop invariant of `findPathLoop` on an obstacle-free grid: sane
nodes, one node per cell, open and closed lists disjoint, the goal never
closed, closed nodes settled with optimal `g`, every in-bounds neighbor of
a closed node either closed itself or open with `g ≤ parent.g + 1`, and the
start anchored (closed, or open with `g = 0`). -/
structure SearchInv (grid : Grid) (s t : Cell) (openL closedL : List Node) : Prop where
  openOK : ∀ n ∈ openL, NodeOK grid s t n
  closedOK : ∀ n ∈ closedL, NodeOK grid s t n
  openNodup : (cellsOf openL).Nodup
  closedNodup : (cellsOf closedL).Nodup
  disj : ∀ n ∈ openL, ∀ m ∈ closedL, n.cell ≠ m.cell
  closedNotGoal : ∀ n ∈ closedL, n.cell ≠ t
  closedOpt : ∀ n ∈ closedL, n.g = manhattan s n.cell
  afterClose : ∀ m ∈ closedL, ∀ nb : Cell, manhattan m.cell nb = 1 →
    grid.inBounds nb.x nb.y = true → nb ∉ cellsOf closedL →
    ∃ n ∈ openL, n.cell = nb ∧ n.g ≤ m.g + 1
  sAnchor : s ∈ cellsOf closedL ∨ ∃ n ∈ openL, n.cell = s ∧ n.g = 0

/-!  ## General lemmas about the session state machine  -/

theorem findDirectionTo_pos (c : Character) (gx gy : Int)
    (h : ¬(c.x = gx ∧ c.y = gy)) : 0 < c.findDirectionTo gx gy := by
  unfold Character.findDirectionTo
  split
  · omega
  · split
    · omega
    · split
      · omega
      · split
        · omega
        · omega

theorem updatePathfinding_noTarget (w : World) (m : Bool) (c : Character)
    (h : c.pathfindingTarget = none) : c.updatePathfinding w m = (c, none) := by
  simp [Character.updatePathfinding, h]

theorem updatePathfinding_endSession (w : World) (m : Bool) (c : Character) (t : Cell)
    (p : List Cell) (ht : c.pathfindingTarget = some t) (hp : c.pathfindingPath = some p)
    (hlen : p.length ≤ c.pathfindingIndex) :
    c.updatePathfinding w m =
      ({ c with pathfindingPath := none, pathfindingTarget := none,
                through := c.originalThrough, forcingThrough := false }, none) := by
  simp [Character.updatePathfinding, ht, hp, hlen]

theorem updatePathfinding_noPath (w : World) (m : Bool) (c : Character) (t : Cell)
    (ht : c.pathfindingTarget = some t) (hp : c.pathfindingPath = none) :
    c.updatePathfinding w m =
      ({ c with pathfindingPath := none, pathfindingTarget := none,
                through := c.originalThrough, forcingThrough := false }, none) := by
  simp [Character.updatePathfinding, ht, hp]

theorem updatePathfinding_arrivalStep (w : World) (c : Character) (t : Cell) (p : List Cell)
    (ht : c.pathfindingTarget = some t) (hp : c.pathfindingPath = some p)
    (hlen : c.pathfindingIndex < p.length)
    (hx : c.x = (p.getD c.pathfindingIndex ⟨0, 0⟩).x)
    (hy : c.y = (p.getD c.pathfindingIndex ⟨0, 0⟩).y) :
    c.updatePathfinding w false =
      (if c.forcingThrough then
        { c with pathfindingIndex := c.pathfindingIndex + 1, pathfindingStuckCount := 0,
                 through := c.originalThrough, forcingThrough := false }
       else
        { c with pathfindingIndex := c.pathfindingIndex + 1,
                 pathfindingStuckCount := 0 }, none) := by
  cases hf : c.forcingThrough <;>
    simp [Character.updatePathfinding, ht, hp, Nat.not_le.mpr hlen, hx, hy, hf]

theorem updatePathfinding_graceStep (w : World) (c : Character) (t : Cell) (p : List Cell)
    (ht : c.pathfindingTarget = some t) (hp : c.pathfindingPath = some p)
    (hlen : c.pathfindingIndex < p.length)
    (hne : ¬(c.x = (p.getD c.pathfindingIndex ⟨0, 0⟩).x ∧
             c.y = (p.getD c.pathfindingIndex ⟨0, 0⟩).y))
    (hblock : c.canPass w
      (c.findDirectionTo (p.getD c.pathfindingIndex ⟨0, 0⟩).x
        (p.getD c.pathfindingIndex ⟨0, 0⟩).y) = false)
    (hstuck : c.pathfindingStuckCount + 1 < 3) :
    c.updatePathfinding w false =
      ({ c with pathfindingStuckCount := c.pathfindingStuckCount + 1 }, none) := by
  have hd := findDirectionTo_pos c _ _ hne
  have h3 : ¬(3 ≤ c.pathfindingStuckCount + 1) := by omega
  simp only [List.getD_eq_getElem?_getD] at hne hd hblock
  simp [Character.updatePathfinding, List.getD_eq_getElem?_getD, ht, hp,
    Nat.not_le.mpr hlen, hne, hd, hblock, h3]

theorem updatePathfinding_replanStep (w : World) (c : Character) (t : Cell) (p : List Cell)
    (ht : c.pathfindingTarget = some t) (hp : c.pathfindingPath = some p)
    (hlen : c.pathfindingIndex < p.length)
    (hne : ¬(c.x = (p.getD c.pathfindingIndex ⟨0, 0⟩).x ∧
             c.y = (p.getD c.pathfindingIndex ⟨0, 0⟩).y))
    (hblock : c.canPass w
      (c.findDirectionTo (p.getD c.pathfindingIndex ⟨0, 0⟩).x
        (p.getD c.pathfindingIndex ⟨0, 0⟩).y) = false)
    (hstuck : c.pathfindingStuckCount = 2) (hrecalc : c.recalculateIfBlocked = true)
    (hfound : 0 < (c.findPathFrom w t.x t.y false).length) :
    c.updatePathfinding w false =
      ({ c with pathfindingPath := some (c.findPathFrom w t.x t.y false),
                pathfindingIndex := 0, pathfindingStuckCount := 0,
                through := c.originalThrough, forcingThrough := false }, none) := by
  have hd := findDirectionTo_pos c _ _ hne
  simp only [List.getD_eq_getElem?_getD] at hne hd hblock
  have hfound' : 0 < (Character.findPathFrom w
      { c with pathfindingStuckCount := c.pathfindingStuckCount + 1 } t.x t.y false).length :=
    hfound
  simp only [Character.findPathFrom, Character.effectiveGrid] at hfound'
  simp [Character.updatePathfinding, List.getD_eq_getElem?_getD, ht, hp,
    Nat.not_le.mpr hlen, hne, hd, hblock, hstuck, hrecalc,
    Character.findPathFrom, Character.effectiveGrid, hfound']

theorem updatePathfinding_moveStep (w : World) (c : Character) (t : Cell) (p : List Cell)
    (ht : c.pathfindingTarget = some t) (hp : c.pathfindingPath = some p)
    (hlen : c.pathfindingIndex < p.length)
    (hne : ¬(c.x = (p.getD c.pathfindingIndex ⟨0, 0⟩).x ∧
             c.y = (p.getD c.pathfindingIndex ⟨0, 0⟩).y))
    (hpass : c.canPass w
      (c.findDirectionTo (p.getD c.pathfindingIndex ⟨0, 0⟩).x
        (p.getD c.pathfindingIndex ⟨0, 0⟩).y) = true) :
    c.updatePathfinding w false =
      ({ c.moveStraight w
           (c.findDirectionTo (p.getD c.pathfindingIndex ⟨0, 0⟩).x
             (p.getD c.pathfindingIndex ⟨0, 0⟩).y) with
         pathfindingStuckCount := 0 },
       some (c.findDirectionTo (p.getD c.pathfindingIndex ⟨0, 0⟩).x
         (p.getD c.pathfindingIndex ⟨0, 0⟩).y)) := by
  have hd := findDirectionTo_pos c _ _ hne
  simp only [List.getD_eq_getElem?_getD] at hne hd hpass
  simp [Character.updatePathfinding, List.getD_eq_getElem?_getD, ht, hp,
    Nat.not_le.mpr hlen, hne, hd, hpass]

theorem findPathFrom_fields (w : World) (c c' : Character) (tx ty : Int) (b : Bool)
    (hx : c.x = c'.x) (hy : c.y = c'.y) (hth : c.through = c'.through) :
    c.findPathFrom w tx ty b = c'.findPathFrom w tx ty b := by
  unfold Character.findPathFrom Character.effectiveGrid
  rw [hx, hy, hth]

theorem scanRing_fields (w : World) (c c' : Character) (tx ty : Int) (radius : Nat)
    (acc : Option Cell × Option Nat)
    (hx : c.x = c'.x) (hy : c.y = c'.y) (hth : c.through = c'.through) :
    scanRing w c tx ty radius acc = scanRing w c' tx ty radius acc := by
  unfold scanRing
  congr 1
  funext a d
  unfold ringCandidateStep
  simp only [findPathFrom_fields w c c' (tx + d.1) (ty + d.2) false hx hy hth]

theorem findClosestLoop_fields (w : World) (c c' : Character) (tx ty : Int)
    (hx : c.x = c'.x) (hy : c.y = c'.y) (hth : c.through = c'.through) :
    ∀ (n radius : Nat) (acc : Option Cell × Option Nat),
      findClosestLoop w c tx ty n radius acc = findClosestLoop w c' tx ty n radius acc := by
  intro n
  induction n with
  | zero => intro radius acc; rfl
  | succ k ih =>
    intro radius acc
    simp only [findClosestLoop]
    rw [scanRing_fields w c c' tx ty radius acc hx hy hth]
    cases h : (scanRing w c' tx ty radius acc).1 with
    | none => simp [h, ih]
    | some p => simp [h]

theorem findClosestAccessiblePoint_fields (w : World) (c c' : Character) (tx ty : Int)
    (hx : c.x = c'.x) (hy : c.y = c'.y) (hth : c.through = c'.through) :
    c.findClosestAccessiblePoint w tx ty = c'.findClosestAccessiblePoint w tx ty :=
  findClosestLoop_fields w c c' tx ty hx hy hth 6 0 (none, none)

/-- When start equals goal, the very first loop iteration pops the start
node, the goal test at the top of the body fires before any expansion, and
the single-cell path is returned. -/
theorem findPath_self (grid : Grid) (s : Cell) (allowThrough : Bool) (n : Nat) :
    findPath grid s s allowThrough (n + 1) = [s] := by
  simp [findPath, findPathLoop, lowestF]

theorem updatePathfinding_move_resets (w : World) (m : Bool) (c : Character) (d : Nat)
    (h : (c.updatePathfinding w m).2 = some d) :
    (c.updatePathfinding w m).1.pathfindingStuckCount = 0 := by
  unfold Character.updatePathfinding at h ⊢
  cases ht : c.pathfindingTarget with
  | none => rw [ht] at h; simp at h
  | some t =>
    simp only [ht] at h ⊢
    cases hp : c.pathfindingPath with
    | none => rw [hp] at h; simp at h
    | some p =>
      simp only [hp] at h ⊢
      split_ifs at h ⊢ <;> simp_all

/-!  ## Lemmas about the search loop  -/

theorem lowestF_mem : ∀ (rest : List Node) (first : Node), lowestF first rest ∈ first :: rest := by
  intro rest
  induction rest with
  | nil => intro first; simp [lowestF]
  | cons b bs ih =>
    intro first
    have e : lowestF first (b :: bs) = lowestF (if first.f < b.f then first else b) bs := rfl
    rw [e]
    rcases List.mem_cons.mp (ih (if first.f < b.f then first else b)) with h | h
    · rw [h]
      split
      · exact List.mem_cons_self _ _
      · exact List.mem_cons_of_mem _ (List.mem_cons_self _ _)
    · exact List.mem_cons_of_mem _ (List.mem_cons_of_mem _ h)

theorem lowestF_le : ∀ (rest : List Node) (first : Node),
    ∀ n ∈ first :: rest, (lowestF first rest).f ≤ n.f := by
  intro rest
  induction rest with
  | nil => intro first n hn; simp at hn; simp [lowestF, hn]
  | cons b bs ih =>
    intro first n hn
    have e : lowestF first (b :: bs) = lowestF (if first.f < b.f then first else b) bs := rfl
    by_cases hfb : first.f < b.f
    · rw [e, if_pos hfb]
      rcases List.mem_cons.mp hn with rfl | hn
      · exact ih n n (List.mem_cons_self n bs)
      · rcases List.mem_cons.mp hn with rfl | hn
        · exact le_trans (ih first first (List.mem_cons_self first bs)) (le_of_lt hfb)
        · exact ih first n (List.mem_cons_of_mem _ hn)
    · rw [e, if_neg hfb]
      rcases List.mem_cons.mp hn with rfl | hn
      · exact le_trans (ih b b (List.mem_cons_self b bs)) (by omega)
      · rcases List.mem_cons.mp hn with rfl | hn
        · exact ih n n (List.mem_cons_self n bs)
        · exact ih b n (List.mem_cons_of_mem _ hn)

theorem removeNode_mem : ∀ (l : List Node) (c : Cell) (n : Node),
    n ∈ removeNode l c → n ∈ l := by
  intro l
  induction l with
  | nil => intro c n h; simp [removeNode] at h
  | cons a rest ih =>
    intro c n h
    unfold removeNode at h
    split at h
    · exact List.mem_cons_of_mem _ h
    · rcases List.mem_cons.mp h with rfl | h
      · exact List.mem_cons_self _ _
      · exact List.mem_cons_of_mem _ (ih c n h)

theorem relaxFirst_path_ne (g f : Nat) (p : List Cell) (hp : p ≠ []) (nb : Cell) :
    ∀ (l : List Node), (∀ n ∈ l, n.path ≠ []) → ∀ n ∈ relaxFirst g f p nb l, n.path ≠ [] := by
  intro l
  induction l with
  | nil => intro _ n h; simp [relaxFirst] at h
  | cons a rest ih =>
    intro hl n h
    unfold relaxFirst at h
    split at h
    · rcases List.mem_cons.mp h with rfl | h
      · split
        · exact hp
        · exact hl a (List.mem_cons_self _ _)
      · exact hl n (List.mem_cons_of_mem _ h)
    · rcases List.mem_cons.mp h with rfl | h
      · exact hl n (List.mem_cons_self _ _)
      · exact ih (fun m hm => hl m (List.mem_cons_of_mem _ hm)) n h

theorem processNeighbor_path_ne (t : Cell) (cur : Node) (cl o : List Node) (nb : Cell)
    (ho : ∀ n ∈ o, n.path ≠ []) : ∀ n ∈ processNeighbor t cur cl o nb, n.path ≠ [] := by
  intro n h
  unfold processNeighbor at h
  split at h
  · exact ho n h
  · split at h
    · exact relaxFirst_path_ne _ _ _ (by simp) nb o ho n h
    · rcases List.mem_append.mp h with h | h
      · exact ho n h
      · simp at h
        subst h
        simp

theorem foldl_processNeighbor_path_ne (t : Cell) (cur : Node) (cl : List Node) :
    ∀ (nbs : List Cell) (o : List Node), (∀ n ∈ o, n.path ≠ []) →
      ∀ n ∈ nbs.foldl (processNeighbor t cur cl) o, n.path ≠ [] := by
  intro nbs
  induction nbs with
  | nil => intro o ho n h; exact ho n h
  | cons b bs ih =>
    intro o ho n h
    exact ih _ (processNeighbor_path_ne t cur cl o b ho) n h

theorem findPathRun_count_le (grid : Grid) (t : Cell) (b : Bool) :
    ∀ (fuel : Nat) (o cl : List Node), (findPathRun grid t b fuel o cl).2 ≤ fuel := by
  intro fuel
  induction fuel with
  | zero => intro o cl; simp [findPathRun]
  | succ k ih =>
    intro o cl
    cases o with
    | nil => simp [findPathRun]
    | cons first rest =>
      simp only [findPathRun]
      split
      · simp
      · simpa using ih _ _

theorem findPathLoop_eq_run (grid : Grid) (t : Cell) (b : Bool) :
    ∀ (fuel : Nat) (o cl : List Node),
      findPathLoop grid t b fuel o cl =
        (match (findPathRun grid t b fuel o cl).1 with
         | .found p => p
         | .exhaustedOpen => []
         | .iterationCap => []) := by
  intro fuel
  induction fuel with
  | zero => intro o cl; simp [findPathRun, findPathLoop]
  | succ k ih =>
    intro o cl
    cases o with
    | nil => simp [findPathRun, findPathLoop]
    | cons first rest =>
      simp only [findPathRun, findPathLoop]
      split
      · simp
      · simpa using ih _ _

theorem findPathRun_found_ne_nil (grid : Grid) (t : Cell) (b : Bool) :
    ∀ (fuel : Nat) (o cl : List Node), (∀ n ∈ o, n.path ≠ []) →
      ∀ p, (findPathRun grid t b fuel o cl).1 = .found p → p ≠ [] := by
  intro fuel
  induction fuel with
  | zero => intro o cl _ p h; simp [findPathRun] at h
  | succ k ih =>
    intro o cl ho p h
    cases o with
    | nil => simp [findPathRun] at h
    | cons first rest =>
      simp only [findPathRun] at h
      split at h
      · simp only [Prod.fst] at h
        cases h with
        | refl => exact ho _ (lowestF_mem rest first)
      · refine ih _ _ ?_ p (by simpa using h)
        intro n hn
        exact foldl_processNeighbor_path_ne t _ _ _ _
          (fun m hm => ho m (removeNode_mem _ _ m hm)) n hn

/-!  ## Claim theorems  -/

/-- **C9** Once a session has reached Idle (no pathfinding target), every
further `updatePathfinding` call is a no-op: it issues no move command and
changes no session or agent state. -/
theorem updatePathfinding_idle_noop (w : World) (m : Bool) (c : Character)
    (h : c.pathfindingTarget = none) : c.updatePathfinding w m = (c, none) :=
  updatePathfinding_noTarget w m c h

/-- Witness for `updatePathfinding_idle_noop` at a concrete idle character. -/
theorem updatePathfinding_idle_noop_witness :
    Character.updatePathfinding ⟨freeGrid 3 3, 5, true⟩ false
      ⟨0, 0, false, none, none, 0, true, 0, false, false⟩ =
      (⟨0, 0, false, none, none, 0, true, 0, false, false⟩, none) :=
  updatePathfinding_idle_noop ⟨freeGrid 3 3, 5, true⟩ false
    ⟨0, 0, false, none, none, 0, true, 0, false, false⟩ rfl

/-- **C4** If `startPathfinding` finds no path and the nearest-point
fallback yields no substitute either, the stored path is the empty array;
the next tick ends the session in Idle (no path, no target, position and
through flag unchanged) with no move command, and every tick thereafter is
a no-op — failure is silent data, never an error (the embedding is total). -/
theorem startPathfinding_unreachable_idle (w : World) (c : Character) (tx ty : Int) (r : Bool)
    (h1 : c.findPathFrom w tx ty false = [])
    (h2 : c.findClosestAccessiblePoint w tx ty = none) :
    (c.startPathfinding w tx ty r).pathfindingPath = some [] ∧
    ∀ (w1 : World) (m1 : Bool),
      ((c.startPathfinding w tx ty r).updatePathfinding w1 m1).2 = none ∧
      ((c.startPathfinding w tx ty r).updatePathfinding w1 m1).1.pathfindingTarget = none ∧
      ((c.startPathfinding w tx ty r).updatePathfinding w1 m1).1.pathfindingPath = none ∧
      ((c.startPathfinding w tx ty r).updatePathfinding w1 m1).1.x = c.x ∧
      ((c.startPathfinding w tx ty r).updatePathfinding w1 m1).1.y = c.y ∧
      ((c.startPathfinding w tx ty r).updatePathfinding w1 m1).1.through = c.through ∧
      ∀ (w2 : World) (m2 : Bool),
        ((c.startPathfinding w tx ty r).updatePathfinding w1 m1).1.updatePathfinding w2 m2 =
          (((c.startPathfinding w tx ty r).updatePathfinding w1 m1).1, none) := by
  have e1 : Character.findPathFrom w { c with pathfindingTarget := some ⟨tx, ty⟩ } tx ty false
      = [] :=
    (findPathFrom_fields w { c with pathfindingTarget := some ⟨tx, ty⟩ } c tx ty false
      rfl rfl rfl).trans h1
  have e2 : Character.findClosestAccessiblePoint w { c with pathfindingTarget := some ⟨tx, ty⟩ }
      tx ty = none :=
    (findClosestAccessiblePoint_fields w { c with pathfindingTarget := some ⟨tx, ty⟩ } c tx ty
      rfl rfl rfl).trans h2
  have hc' : c.startPathfinding w tx ty r =
      { c with pathfindingTarget := some ⟨tx, ty⟩, pathfindingPath := some [],
               pathfindingIndex := 0, recalculateIfBlocked := r,
               pathfindingStuckCount := 0, originalThrough := c.through,
               forcingThrough := false } := by
    simp [Character.startPathfinding, e1, e2]
  constructor
  · rw [hc']
  · intro w1 m1
    have hend : (c.startPathfinding w tx ty r).updatePathfinding w1 m1 =
        ({ c with pathfindingTarget := none, pathfindingPath := none,
                  pathfindingIndex := 0, recalculateIfBlocked := r,
                  pathfindingStuckCount := 0, originalThrough := c.through,
                  forcingThrough := false }, none) := by
      rw [hc']
      exact updatePathfinding_endSession w1 m1 _ ⟨tx, ty⟩ [] rfl rfl (by simp)
    refine ⟨by rw [hend], by rw [hend], by rw [hend], by rw [hend], by rw [hend],
      by rw [hend], ?_⟩
    intro w2 m2
    rw [hend]
    exact updatePathfinding_noTarget w2 m2 _ rfl

/-- Witness for `startPathfinding_unreachable_idle`: a 1×1 map with target
(5, 5); no path and no in-bounds substitute point exist. -/
theorem startPathfinding_unreachable_idle_witness :
    (Character.startPathfinding ⟨⟨1, 1, fun _ _ _ => true, fun _ _ _ => true⟩, 5, true⟩
        ⟨0, 0, false, none, none, 0, true, 0, false, false⟩ 5 5 true).pathfindingPath
      = some [] ∧
    ((Character.startPathfinding ⟨⟨1, 1, fun _ _ _ => true, fun _ _ _ => true⟩, 5, true⟩
        ⟨0, 0, false, none, none, 0, true, 0, false, false⟩ 5 5 true).updatePathfinding
        ⟨⟨1, 1, fun _ _ _ => true, fun _ _ _ => true⟩, 5, true⟩ false).2 = none ∧
    ((Character.startPathfinding ⟨⟨1, 1, fun _ _ _ => true, fun _ _ _ => true⟩, 5, true⟩
        ⟨0, 0, false, none, none, 0, true, 0, false, false⟩ 5 5 true).updatePathfinding
        ⟨⟨1, 1, fun _ _ _ => true, fun _ _ _ => true⟩, 5, true⟩ false).1.pathfindingTarget
      = none := by
  have h := startPathfinding_unreachable_idle
    ⟨⟨1, 1, fun _ _ _ => true, fun _ _ _ => true⟩, 5, true⟩
    ⟨0, 0, false, none, none, 0, true, 0, false, false⟩ 5 5 true
    (by decide) (by decide)
  exact ⟨h.1, (h.2 _ false).1, (h.2 _ false).2.1⟩

/-- **C7** The forced-through override lasts at most one step: when the
session ends (no path, or cursor past the end) the through flag is restored
to the `originalThrough` snapshot and `forcingThrough` is cleared, and when
a forced-through step completes (the agent stands on the next path cell)
the same restoration happens while the cursor advances; neither tick issues
a move command. -/
theorem forcingThrough_one_step (w : World) (m : Bool) (c : Character) (t : Cell)
    (ht : c.pathfindingTarget = some t) :
    ((c.pathfindingPath = none ∨
        ∃ p, c.pathfindingPath = some p ∧ p.length ≤ c.pathfindingIndex) →
      (c.updatePathfinding w m).1.through = c.originalThrough ∧
      (c.updatePathfinding w m).1.forcingThrough = false ∧
      (c.updatePathfinding w m).2 = none) ∧
    (∀ p, c.pathfindingPath = some p → c.pathfindingIndex < p.length →
      c.x = (p.getD c.pathfindingIndex ⟨0, 0⟩).x →
      c.y = (p.getD c.pathfindingIndex ⟨0, 0⟩).y →
      c.forcingThrough = true →
      c.updatePathfinding w false =
        ({ c with pathfindingIndex := c.pathfindingIndex + 1, pathfindingStuckCount := 0,
                  through := c.originalThrough, forcingThrough := false }, none)) := by
  constructor
  · rintro (hp | ⟨p, hp, hlen⟩)
    · rw [updatePathfinding_noPath w m c t ht hp]
      exact ⟨rfl, rfl, rfl⟩
    · rw [updatePathfinding_endSession w m c t p ht hp hlen]
      exact ⟨rfl, rfl, rfl⟩
  · intro p hp hlen hx hy hf
    rw [updatePathfinding_arrivalStep w c t p ht hp hlen hx hy, hf]
    simp

/-- Witness for `forcingThrough_one_step`: a forced-through step completing
on a concrete two-cell path. -/
theorem forcingThrough_one_step_witness :
    Character.updatePathfinding ⟨freeGrid 2 2, 5, true⟩ false
      ⟨1, 0, true, some ⟨1, 1⟩, some [⟨1, 0⟩, ⟨1, 1⟩], 0, true, 0, false, true⟩ =
      (⟨1, 0, false, some ⟨1, 1⟩, some [⟨1, 0⟩, ⟨1, 1⟩], 1, true, 0, false, false⟩, none) := by
  have h := (forcingThrough_one_step ⟨freeGrid 2 2, 5, true⟩ false
    ⟨1, 0, true, some ⟨1, 1⟩, some [⟨1, 0⟩, ⟨1, 1⟩], 0, true, 0, false, true⟩ ⟨1, 1⟩ rfl).2
    [⟨1, 0⟩, ⟨1, 1⟩] rfl (by decide) rfl rfl rfl
  exact h

/-- **C6** When start equals goal, `findPath` returns the trivial
single-cell path `[start]` on its very first iteration — the goal test at
the top of the loop fires before any neighbor expansion, so the result does
not depend on the grid at all — and a session started at the character's
own cell needs zero moves: the first tick consumes the single cell without
issuing a move, the second tick ends the session as arrived. -/
theorem findPath_trivial_start_eq_goal :
    (∀ (grid : Grid) (s : Cell) (allowThrough : Bool) (maxIterations : Nat),
      0 < maxIterations → findPath grid s s allowThrough maxIterations = [s]) ∧
    (∀ (w : World) (c : Character) (r : Bool), 0 < w.maxIterations →
      (c.startPathfinding w c.x c.y r).pathfindingPath = some [⟨c.x, c.y⟩] ∧
      (c.startPathfinding w c.x c.y r).updatePathfinding w false =
        ({ c.startPathfinding w c.x c.y r with
             pathfindingIndex := 1, pathfindingStuckCount := 0 }, none) ∧
      ((c.startPathfinding w c.x c.y r).updatePathfinding w false).2 = none ∧
      (((c.startPathfinding w c.x c.y r).updatePathfinding w false).1.updatePathfinding
          w false).2 = none ∧
      (((c.startPathfinding w c.x c.y r).updatePathfinding w false).1.updatePathfinding
          w false).1.pathfindingTarget = none) := by
  have base : ∀ (grid : Grid) (s : Cell) (allowThrough : Bool) (maxIterations : Nat),
      0 < maxIterations → findPath grid s s allowThrough maxIterations = [s] := by
    intro grid s allowThrough maxIterations hpos
    obtain ⟨n, rfl⟩ : ∃ n, maxIterations = n + 1 := ⟨maxIterations - 1, by omega⟩
    exact findPath_self grid s allowThrough n
  refine ⟨base, ?_⟩
  intro w c r hpos
  have hpath0 : Character.findPathFrom w { c with pathfindingTarget := some ⟨c.x, c.y⟩ }
      c.x c.y false = [⟨c.x, c.y⟩] := base _ ⟨c.x, c.y⟩ false w.maxIterations hpos
  have hc' : c.startPathfinding w c.x c.y r =
      { c with pathfindingTarget := some ⟨c.x, c.y⟩,
               pathfindingPath := some [⟨c.x, c.y⟩], pathfindingIndex := 0,
               recalculateIfBlocked := r, pathfindingStuckCount := 0,
               originalThrough := c.through, forcingThrough := false } := by
    simp [Character.startPathfinding, hpath0]
  have tick1 : (c.startPathfinding w c.x c.y r).updatePathfinding w false =
      ({ c.startPathfinding w c.x c.y r with
           pathfindingIndex := 1, pathfindingStuckCount := 0 }, none) := by
    rw [hc']
    rw [updatePathfinding_arrivalStep w _ ⟨c.x, c.y⟩ [⟨c.x, c.y⟩] rfl rfl (by simp) rfl rfl]
    simp
  refine ⟨by rw [hc'], tick1, by rw [tick1], ?_, ?_⟩
  · rw [tick1, hc']
    rw [updatePathfinding_endSession w false _ ⟨c.x, c.y⟩ [⟨c.x, c.y⟩] rfl rfl (by simp)]
  · rw [tick1, hc']
    rw [updatePathfinding_endSession w false _ ⟨c.x, c.y⟩ [⟨c.x, c.y⟩] rfl rfl (by simp)]

/-- Witness for `findPath_trivial_start_eq_goal`: a concrete 3×3 grid with
start = goal = (1, 1). -/
theorem findPath_trivial_start_eq_goal_witness :
    findPath (freeGrid 3 3) ⟨1, 1⟩ ⟨1, 1⟩ false 7 = [⟨1, 1⟩] ∧
    (Character.startPathfinding ⟨freeGrid 3 3, 7, true⟩
        ⟨1, 1, false, none, none, 0, true, 0, false, false⟩ 1 1 true).pathfindingPath =
      some [⟨1, 1⟩] :=
  ⟨findPath_trivial_start_eq_goal.1 (freeGrid 3 3) ⟨1, 1⟩ false 7 (by decide),
   (findPath_trivial_start_eq_goal.2 ⟨freeGrid 3 3, 7, true⟩
     ⟨1, 1, false, none, none, 0, true, 0, false, false⟩ true (by decide)).1⟩

/-- **C3** The stuck/replan ladder: a blocked tick that raises
`stuckCount` to 1 or 2 issues no move command and changes nothing but the
counter (in particular no replan); a blockage lasting exactly two ticks
that then clears never replans — the third tick issues the move toward the
unchanged original path at the unchanged cursor, resetting the counter;
only a blocked tick where the counter reaches 3 with
`recalculateIfBlocked` replans, adopting the found path with cursor 0 and
counter 0; and any tick that issues a move command leaves the counter at 0. -/
theorem updatePathfinding_stuck_ladder
    (w1 w2 w3 : World) (c : Character) (t : Cell) (p : List Cell) (next : Cell) (dir : Nat)
    (hnext : next = p.getD c.pathfindingIndex ⟨0, 0⟩)
    (hdir : dir = c.findDirectionTo next.x next.y)
    (ht : c.pathfindingTarget = some t) (hp : c.pathfindingPath = some p)
    (hlen : c.pathfindingIndex < p.length)
    (hne : ¬(c.x = next.x ∧ c.y = next.y))
    (hstuck0 : c.pathfindingStuckCount = 0)
    (hb1 : c.canPass w1 dir = false) (hb2 : c.canPass w2 dir = false)
    (hb3 : c.canPass w3 dir = true) :
    (c.updatePathfinding w1 false = ({ c with pathfindingStuckCount := 1 }, none)) ∧
    (Character.updatePathfinding w2 false { c with pathfindingStuckCount := 1 } =
      ({ c with pathfindingStuckCount := 2 }, none)) ∧
    (Character.updatePathfinding w3 false { c with pathfindingStuckCount := 2 } =
      ({ Character.moveStraight w3 { c with pathfindingStuckCount := 2 } dir with
           pathfindingStuckCount := 0 }, some dir)) ∧
    ((Character.moveStraight w3 { c with pathfindingStuckCount := 2 } dir).pathfindingPath
        = some p ∧
     (Character.moveStraight w3 { c with pathfindingStuckCount := 2 } dir).pathfindingIndex
        = c.pathfindingIndex) ∧
    (∀ (wg : World) (cg : Character) (tg : Cell) (pg : List Cell),
      cg.pathfindingTarget = some tg → cg.pathfindingPath = some pg →
      cg.pathfindingIndex < pg.length →
      ¬(cg.x = (pg.getD cg.pathfindingIndex ⟨0, 0⟩).x ∧
        cg.y = (pg.getD cg.pathfindingIndex ⟨0, 0⟩).y) →
      cg.canPass wg (cg.findDirectionTo (pg.getD cg.pathfindingIndex ⟨0, 0⟩).x
        (pg.getD cg.pathfindingIndex ⟨0, 0⟩).y) = false →
      cg.pathfindingStuckCount + 1 < 3 →
      cg.updatePathfinding wg false =
        ({ cg with pathfindingStuckCount := cg.pathfindingStuckCount + 1 }, none)) ∧
    (∀ (wr : World) (cr : Character) (tr : Cell) (pr : List Cell),
      cr.pathfindingTarget = some tr → cr.pathfindingPath = some pr →
      cr.pathfindingIndex < pr.length →
      ¬(cr.x = (pr.getD cr.pathfindingIndex ⟨0, 0⟩).x ∧
        cr.y = (pr.getD cr.pathfindingIndex ⟨0, 0⟩).y) →
      cr.canPass wr (cr.findDirectionTo (pr.getD cr.pathfindingIndex ⟨0, 0⟩).x
        (pr.getD cr.pathfindingIndex ⟨0, 0⟩).y) = false →
      cr.pathfindingStuckCount = 2 → cr.recalculateIfBlocked = true →
      0 < (cr.findPathFrom wr tr.x tr.y false).length →
      cr.updatePathfinding wr false =
        ({ cr with pathfindingPath := some (cr.findPathFrom wr tr.x tr.y false),
                   pathfindingIndex := 0, pathfindingStuckCount := 0,
                   through := cr.originalThrough, forcingThrough := false }, none)) ∧
    (∀ (wm : World) (mm : Bool) (cm : Character) (dm : Nat),
      (cm.updatePathfinding wm mm).2 = some dm →
      (cm.updatePathfinding wm mm).1.pathfindingStuckCount = 0) := by
  subst hdir
  subst hnext
  have t1 := updatePathfinding_graceStep w1 c t p ht hp hlen hne hb1 (by omega)
  have t2 := updatePathfinding_graceStep w2 { c with pathfindingStuckCount := 1 } t p
    ht hp hlen hne hb2 (by show (1 : Nat) + 1 < 3; omega)
  have t3 := updatePathfinding_moveStep w3 { c with pathfindingStuckCount := 2 } t p
    ht hp hlen hne hb3
  refine ⟨?_, ?_, ?_, ⟨?_, ?_⟩, ?_, ?_, ?_⟩
  · rw [t1, hstuck0]
  · exact t2
  · exact t3
  · unfold Character.moveStraight
    split <;> exact hp
  · unfold Character.moveStraight
    split <;> rfl
  · intro wg cg tg pg htg hpg hlg hng hbg hsg
    exact updatePathfinding_graceStep wg cg tg pg htg hpg hlg hng hbg hsg
  · intro wr cr tr pr htr hpr hlr hnr hbr hsr hrr hfr
    exact updatePathfinding_replanStep wr cr tr pr htr hpr hlr hnr hbr hsr hrr hfr
  · exact updatePathfinding_move_resets

/-- Witness for `updatePathfinding_stuck_ladder`: a mover at (0, 0) heading
one cell right on a 4x4 map; the occupant oracle blocks everything on the
first two ticks and clears on the third.  A second instance exercises the
replan branch: the direct edge is permanently occupant-blocked but a
detour exists, and a character already at counter 2 adopts it. -/
theorem updatePathfinding_stuck_ladder_witness :
    (Character.updatePathfinding ⟨⟨4, 4, fun _ _ _ => true, fun _ _ _ => false⟩, 20, true⟩
        false ⟨0, 0, false, some ⟨1, 0⟩, some [⟨1, 0⟩], 0, true, 0, false, false⟩ =
      (⟨0, 0, false, some ⟨1, 0⟩, some [⟨1, 0⟩], 0, true, 1, false, false⟩, none)) ∧
    (Character.updatePathfinding ⟨⟨4, 4, fun _ _ _ => true, fun _ _ _ => false⟩, 20, true⟩
        false ⟨0, 0, false, some ⟨1, 0⟩, some [⟨1, 0⟩], 0, true, 1, false, false⟩ =
      (⟨0, 0, false, some ⟨1, 0⟩, some [⟨1, 0⟩], 0, true, 2, false, false⟩, none)) ∧
    (Character.updatePathfinding ⟨⟨2, 2, fun _ _ _ => true,
          fun x y d => !(x == 0 && y == 0 && d == 6)⟩, 20, true⟩ false
        ⟨0, 0, false, some ⟨1, 0⟩, some [⟨1, 0⟩], 0, true, 2, false, false⟩ =
      (⟨0, 0, false, some ⟨1, 0⟩, some (Character.findPathFrom
          ⟨⟨2, 2, fun _ _ _ => true, fun x y d => !(x == 0 && y == 0 && d == 6)⟩, 20, true⟩
          ⟨0, 0, false, some ⟨1, 0⟩, some [⟨1, 0⟩], 0, true, 2, false, false⟩ 1 0 false),
        0, true, 0, false, false⟩, none)) := by
  have h := updatePathfinding_stuck_ladder
    ⟨⟨4, 4, fun _ _ _ => true, fun _ _ _ => false⟩, 20, true⟩
    ⟨⟨4, 4, fun _ _ _ => true, fun _ _ _ => false⟩, 20, true⟩
    ⟨⟨4, 4, fun _ _ _ => true, fun _ _ _ => true⟩, 20, true⟩
    ⟨0, 0, false, some ⟨1, 0⟩, some [⟨1, 0⟩], 0, true, 0, false, false⟩
    ⟨1, 0⟩ [⟨1, 0⟩] ⟨1, 0⟩ 6 rfl rfl rfl rfl (by decide) (by decide) rfl rfl rfl rfl
  refine ⟨h.1, h.2.1, ?_⟩
  exact h.2.2.2.2.2.1
    ⟨⟨2, 2, fun _ _ _ => true, fun x y d => !(x == 0 && y == 0 && d == 6)⟩, 20, true⟩
    ⟨0, 0, false, some ⟨1, 0⟩, some [⟨1, 0⟩], 0, true, 2, false, false⟩
    ⟨1, 0⟩ [⟨1, 0⟩] rfl rfl (by decide) (by decide) (by decide) rfl rfl (by decide)

/-- **C2** `findPath` always terminates (it is a total function of its
fuel), executes at most `maxIterations` iterations of its main loop — the
instrumented run counts one per node expansion — and returns the NotFound
sentinel `[]` exactly when the run ends because the open set emptied or the
iteration cap was reached, never when the goal was popped (a popped goal
always carries a non-empty reconstructed path). -/
theorem findPath_bounded_iterations (grid : Grid) (s t : Cell) (b : Bool) (N : Nat) :
    (findPathRun grid t b N
      [{ x := s.x, y := s.y, g := 0, h := 0, f := 0, path := [s] }] []).2 ≤ N ∧
    (findPath grid s t b N = [] ↔
      ((findPathRun grid t b N
          [{ x := s.x, y := s.y, g := 0, h := 0, f := 0, path := [s] }] []).1 =
            SearchOutcome.exhaustedOpen ∨
       (findPathRun grid t b N
          [{ x := s.x, y := s.y, g := 0, h := 0, f := 0, path := [s] }] []).1 =
            SearchOutcome.iterationCap)) := by
  refine ⟨findPathRun_count_le grid t b N _ _, ?_⟩
  have hfp : findPath grid s t b N =
      findPathLoop grid t b N
        [{ x := s.x, y := s.y, g := 0, h := 0, f := 0, path := [s] }] [] := rfl
  have he := findPathLoop_eq_run grid t b N
    [{ x := s.x, y := s.y, g := 0, h := 0, f := 0, path := [s] }] []
  cases ho : (findPathRun grid t b N
      [{ x := s.x, y := s.y, g := 0, h := 0, f := 0, path := [s] }] []).1 with
  | found p =>
    have hne : p ≠ [] := findPathRun_found_ne_nil grid t b N _ _ (by simp) p ho
    rw [hfp, he, ho]
    simp [hne]
  | exhaustedOpen =>
    rw [hfp, he, ho]
    simp
  | iterationCap =>
    rw [hfp, he, ho]
    simp

theorem getNeighbors_mem (grid : Grid) (a : Cell) (allow : Bool) (nb : Cell) :
    nb ∈ getNeighbors grid a allow ↔
      ∃ d ∈ directions, nb = ⟨a.x + d.1, a.y + d.2.1⟩ ∧
        grid.inBounds (a.x + d.1) (a.y + d.2.1) = true ∧
        (grid.isPassable a.x a.y d.2.2 &&
          (grid.canPass a.x a.y d.2.2 || allow)) = true := by
  simp only [getNeighbors, List.mem_filterMap]
  constructor
  · rintro ⟨d, hd, hf⟩
    refine ⟨d, hd, ?_⟩
    split at hf
    · split at hf
      · simp_all [Option.some.injEq]
      · simp at hf
    · simp at hf
  · rintro ⟨d, hd, rfl, hib, hpass⟩
    exact ⟨d, hd, by simp [hib, hpass]⟩

theorem getNeighbors_char (grid : Grid) (a : Cell) (allow : Bool) :
    ∀ d ∈ directions, grid.inBounds (a.x + d.1) (a.y + d.2.1) = true →
      ((⟨a.x + d.1, a.y + d.2.1⟩ : Cell) ∈ getNeighbors grid a allow ↔
        (grid.isPassable a.x a.y d.2.2 = true ∧
         (grid.canPass a.x a.y d.2.2 = true ∨ allow = true))) := by
  intro d hd hib
  rw [getNeighbors_mem]
  constructor
  · rintro ⟨d', hd', he, hib', hpass⟩
    have hsame : d' = d := by
      fin_cases hd <;> fin_cases hd' <;> simp_all [Cell.mk.injEq]
    subst hsame
    simpa using hpass
  · intro hpass
    exact ⟨d, hd, rfl, hib, by simpa using hpass⟩

theorem relaxFirst_eq_of_firstMatch (g f : Nat) (p : List Cell) (nb : Cell) :
    ∀ (pre : List Node) (n : Node) (post : List Node),
      (∀ m ∈ pre, ¬(m.x = nb.x ∧ m.y = nb.y)) → (n.x = nb.x ∧ n.y = nb.y) →
      relaxFirst g f p nb (pre ++ n :: post) =
        pre ++ (if g < n.g then { n with g := g, f := f, path := p } else n) :: post := by
  intro pre
  induction pre with
  | nil => intro n post _ hn; simp [relaxFirst, hn]
  | cons a rest ih =>
    intro n post hpre hn
    have ha := hpre a (List.mem_cons_self _ _)
    simp only [List.cons_append, relaxFirst, if_neg ha, List.append_eq]
    rw [ih n post (fun m hm => hpre m (List.mem_cons_of_mem _ hm)) hn]

theorem processNeighbor_spec (t : Cell) (cur : Node) (cl o : List Node) (nb : Cell) :
    ((∃ m ∈ cl, m.x = nb.x ∧ m.y = nb.y) → processNeighbor t cur cl o nb = o) ∧
    ((∀ m ∈ cl, ¬(m.x = nb.x ∧ m.y = nb.y)) →
      ∀ (pre : List Node) (n : Node) (post : List Node), o = pre ++ n :: post →
        (∀ m ∈ pre, ¬(m.x = nb.x ∧ m.y = nb.y)) → (n.x = nb.x ∧ n.y = nb.y) →
        processNeighbor t cur cl o nb =
          pre ++ (if cur.g + 1 < n.g then
                    { n with g := cur.g + 1,
                             f := cur.g + 1 + manhattan nb t,
                             path := cur.path ++ [nb] }
                  else n) :: post) ∧
    ((∀ m ∈ cl, ¬(m.x = nb.x ∧ m.y = nb.y)) → (∀ m ∈ o, ¬(m.x = nb.x ∧ m.y = nb.y)) →
      processNeighbor t cur cl o nb =
        o ++ [{ x := nb.x, y := nb.y, g := cur.g + 1, h := manhattan nb t,
                f := cur.g + 1 + manhattan nb t, path := cur.path ++ [nb] }]) := by
  refine ⟨?_, ?_, ?_⟩
  · rintro ⟨m, hm, hx, hy⟩
    have hany : (cl.any fun node => node.x == nb.x && node.y == nb.y) = true := by
      simp [List.any_eq_true]
      exact ⟨m, hm, hx, hy⟩
    simp [processNeighbor, hany]
  · intro hcl pre n post ho hpre hn
    have hanyc : (cl.any fun node => node.x == nb.x && node.y == nb.y) = false := by
      simp [List.any_eq_false]
      exact fun m hm => by simpa using hcl m hm
    have hanyo : (o.any fun node => node.x == nb.x && node.y == nb.y) = true := by
      simp [List.any_eq_true]
      exact ⟨n, by rw [ho]; exact List.mem_append_right _ (List.mem_cons_self _ _),
        hn.1, hn.2⟩
    rw [processNeighbor, hanyc]
    simp only [Bool.false_eq_true, if_false, hanyo, if_true]
    rw [ho]
    exact relaxFirst_eq_of_firstMatch _ _ _ nb pre n post hpre hn
  · intro hcl ho
    have hanyc : (cl.any fun node => node.x == nb.x && node.y == nb.y) = false := by
      simp [List.any_eq_false]
      exact fun m hm => by simpa using hcl m hm
    have hanyo : (o.any fun node => node.x == nb.x && node.y == nb.y) = false := by
      simp [List.any_eq_false]
      exact fun m hm => by simpa using ho m hm
    rw [processNeighbor, hanyc]
    simp [hanyo]

/-- **C8** During expansion: an in-bounds 4-neighbor of the expanded node is
a candidate (member of `getNeighbors`) iff the edge's `isPassable` holds and
(`canPass` holds or `allowThrough` is set); a candidate whose cell is on the
closed list leaves the open list untouched; a candidate already open (first
matching entry) gets its `g`, `f` and parent chain replaced exactly when the
tentative `g` is strictly smaller, and is left alone otherwise; a candidate
on neither list is appended as a fresh open node. -/
theorem neighbor_candidate_rule (grid : Grid) (a : Cell) (allow : Bool)
    (t : Cell) (cur : Node) (cl o : List Node) (nb : Cell) :
    (∀ d ∈ directions, grid.inBounds (a.x + d.1) (a.y + d.2.1) = true →
      ((⟨a.x + d.1, a.y + d.2.1⟩ : Cell) ∈ getNeighbors grid a allow ↔
        (grid.isPassable a.x a.y d.2.2 = true ∧
         (grid.canPass a.x a.y d.2.2 = true ∨ allow = true)))) ∧
    ((∃ m ∈ cl, m.x = nb.x ∧ m.y = nb.y) → processNeighbor t cur cl o nb = o) ∧
    ((∀ m ∈ cl, ¬(m.x = nb.x ∧ m.y = nb.y)) →
      ∀ (pre : List Node) (n : Node) (post : List Node), o = pre ++ n :: post →
        (∀ m ∈ pre, ¬(m.x = nb.x ∧ m.y = nb.y)) → (n.x = nb.x ∧ n.y = nb.y) →
        processNeighbor t cur cl o nb =
          pre ++ (if cur.g + 1 < n.g then
                    { n with g := cur.g + 1,
                             f := cur.g + 1 + manhattan nb t,
                             path := cur.path ++ [nb] }
                  else n) :: post) ∧
    ((∀ m ∈ cl, ¬(m.x = nb.x ∧ m.y = nb.y)) → (∀ m ∈ o, ¬(m.x = nb.x ∧ m.y = nb.y)) →
      processNeighbor t cur cl o nb =
        o ++ [{ x := nb.x, y := nb.y, g := cur.g + 1, h := manhattan nb t,
                f := cur.g + 1 + manhattan nb t, path := cur.path ++ [nb] }]) :=
  ⟨getNeighbors_char grid a allow, (processNeighbor_spec t cur cl o nb).1,
   (processNeighbor_spec t cur cl o nb).2.1, (processNeighbor_spec t cur cl o nb).2.2⟩

/-- Witness for `neighbor_candidate_rule`: the right-hand neighbor of
(1, 1) on an open 3×3 grid is a candidate; a concrete closed entry is
skipped; a concrete cheaper route relaxes an open entry; a fresh neighbor is
appended. -/
theorem neighbor_candidate_rule_witness :
    ((⟨2, 1⟩ : Cell) ∈ getNeighbors (freeGrid 3 3) ⟨1, 1⟩ false) ∧
    (processNeighbor ⟨2, 2⟩ ⟨1, 1, 1, 2, 3, [⟨1, 1⟩]⟩
      [⟨2, 1, 5, 1, 6, [⟨2, 1⟩]⟩] [] ⟨2, 1⟩ = []) ∧
    (processNeighbor ⟨2, 2⟩ ⟨1, 1, 1, 2, 3, [⟨1, 1⟩]⟩
      [] [⟨2, 1, 5, 1, 6, [⟨2, 1⟩]⟩] ⟨2, 1⟩ = [⟨2, 1, 2, 1, 3, [⟨1, 1⟩, ⟨2, 1⟩]⟩]) ∧
    (processNeighbor ⟨2, 2⟩ ⟨1, 1, 1, 2, 3, [⟨1, 1⟩]⟩
      [] [] ⟨2, 1⟩ = [⟨2, 1, 2, 1, 3, [⟨1, 1⟩, ⟨2, 1⟩]⟩]) := by
  refine ⟨?_, ?_, ?_, ?_⟩
  · exact ((neighbor_candidate_rule (freeGrid 3 3) ⟨1, 1⟩ false ⟨2, 2⟩
      ⟨1, 1, 1, 2, 3, [⟨1, 1⟩]⟩ [] [] ⟨2, 1⟩).1 (1, 0, 6) (by decide)
      (by decide)).mpr ⟨rfl, Or.inl rfl⟩
  · exact (neighbor_candidate_rule (freeGrid 3 3) ⟨1, 1⟩ false ⟨2, 2⟩
      ⟨1, 1, 1, 2, 3, [⟨1, 1⟩]⟩ [⟨2, 1, 5, 1, 6, [⟨2, 1⟩]⟩] [] ⟨2, 1⟩).2.1
      ⟨⟨2, 1, 5, 1, 6, [⟨2, 1⟩]⟩, by decide, rfl, rfl⟩
  · exact ((neighbor_candidate_rule (freeGrid 3 3) ⟨1, 1⟩ false ⟨2, 2⟩
      ⟨1, 1, 1, 2, 3, [⟨1, 1⟩]⟩ [] [⟨2, 1, 5, 1, 6, [⟨2, 1⟩]⟩] ⟨2, 1⟩).2.2.1
      (by simp) [] ⟨2, 1, 5, 1, 6, [⟨2, 1⟩]⟩ [] rfl (by simp) ⟨rfl, rfl⟩).trans
      (by decide)
  · exact ((neighbor_candidate_rule (freeGrid 3 3) ⟨1, 1⟩ false ⟨2, 2⟩
      ⟨1, 1, 1, 2, 3, [⟨1, 1⟩]⟩ [] [] ⟨2, 1⟩).2.2.2 (by simp) (by simp)).trans
      (by decide)

theorem relaxFirst_path_pred {P : List Cell → Prop} (g f : Nat) (p : List Cell)
    (hp : P p) (nb : Cell) :
    ∀ (l : List Node), (∀ n ∈ l, P n.path) → ∀ n ∈ relaxFirst g f p nb l, P n.path := by
  intro l
  induction l with
  | nil => intro _ n h; simp [relaxFirst] at h
  | cons a rest ih =>
    intro hl n h
    unfold relaxFirst at h
    split at h
    · rcases List.mem_cons.mp h with rfl | h
      · split
        · exact hp
        · exact hl a (List.mem_cons_self _ _)
      · exact hl n (List.mem_cons_of_mem _ h)
    · rcases List.mem_cons.mp h with rfl | h
      · exact hl n (List.mem_cons_self _ _)
      · exact ih (fun m hm => hl m (List.mem_cons_of_mem _ hm)) n h

theorem processNeighbor_path_pred {P : List Cell → Prop} (t : Cell) (cur : Node)
    (cl o : List Node) (nb : Cell) (hnew : P (cur.path ++ [nb]))
    (ho : ∀ n ∈ o, P n.path) : ∀ n ∈ processNeighbor t cur cl o nb, P n.path := by
  intro n h
  unfold processNeighbor at h
  split at h
  · exact ho n h
  · split at h
    · exact relaxFirst_path_pred _ _ _ hnew nb o ho n h
    · rcases List.mem_append.mp h with h | h
      · exact ho n h
      · simp at h
        subst h
        exact hnew

theorem foldl_processNeighbor_path_pred {P : List Cell → Prop} (t : Cell) (cur : Node)
    (cl : List Node) (hnew : ∀ nb, P (cur.path ++ [nb])) :
    ∀ (nbs : List Cell) (o : List Node), (∀ n ∈ o, P n.path) →
      ∀ n ∈ nbs.foldl (processNeighbor t cur cl) o, P n.path := by
  intro nbs
  induction nbs with
  | nil => intro o ho n h; exact ho n h
  | cons b bs ih =>
    intro o ho n h
    exact ih _ (processNeighbor_path_pred t cur cl o b (hnew b) ho) n h

theorem findPathRun_found_pred {P : List Cell → Prop}
    (hstep : ∀ (l : List Cell), P l → ∀ x, P (l ++ [x]))
    (grid : Grid) (t : Cell) (b : Bool) :
    ∀ (fuel : Nat) (o cl : List Node), (∀ n ∈ o, P n.path) →
      ∀ p, (findPathRun grid t b fuel o cl).1 = .found p → P p := by
  intro fuel
  induction fuel with
  | zero => intro o cl _ p h; simp [findPathRun] at h
  | succ k ih =>
    intro o cl ho p h
    cases o with
    | nil => simp [findPathRun] at h
    | cons first rest =>
      simp only [findPathRun] at h
      split at h
      · simp only [Prod.fst] at h
        cases h with
        | refl => exact ho _ (lowestF_mem rest first)
      · refine ih _ _ ?_ p (by simpa using h)
        intro n hn
        exact foldl_processNeighbor_path_pred t _ _
          (hstep _ (ho _ (lowestF_mem rest first))) _ _
          (fun m hm => ho m (removeNode_mem _ _ m hm)) n hn

theorem findPath_head (grid : Grid) (s t : Cell) (b : Bool) (N : Nat)
    (hne : findPath grid s t b N ≠ []) : (findPath grid s t b N).head? = some s := by
  have hfp : findPath grid s t b N =
      findPathLoop grid t b N
        [{ x := s.x, y := s.y, g := 0, h := 0, f := 0, path := [s] }] [] := rfl
  have he := findPathLoop_eq_run grid t b N
    [{ x := s.x, y := s.y, g := 0, h := 0, f := 0, path := [s] }] []
  cases ho : (findPathRun grid t b N
      [{ x := s.x, y := s.y, g := 0, h := 0, f := 0, path := [s] }] []).1 with
  | found p =>
    have hhead : p.head? = some s := by
      refine findPathRun_found_pred (P := fun l => l.head? = some s) ?_ grid t b N _ _
        (by simp) p ho
      intro l hl x
      cases l with
      | nil => simp at hl
      | cons a as => simpa using hl
    rw [hfp, he, ho]
    exact hhead
  | exhaustedOpen => rw [hfp, he, ho] at hne; simp at hne
  | iterationCap => rw [hfp, he, ho] at hne; simp at hne

theorem startPathfinding_path_cases (w : World) (c : Character) (tx ty : Int) (r : Bool) :
    (c.startPathfinding w tx ty r).pathfindingPath = some (c.findPathFrom w tx ty false) ∨
    (∃ q, c.findClosestAccessiblePoint w tx ty = some q ∧
      (c.startPathfinding w tx ty r).pathfindingPath =
        some (c.findPathFrom w q.x q.y false)) := by
  have e1 : Character.findPathFrom w { c with pathfindingTarget := some ⟨tx, ty⟩ } tx ty false
      = c.findPathFrom w tx ty false :=
    findPathFrom_fields w _ c tx ty false rfl rfl rfl
  have e2 : Character.findClosestAccessiblePoint w
        { c with pathfindingTarget := some ⟨tx, ty⟩ } tx ty
      = c.findClosestAccessiblePoint w tx ty :=
    findClosestAccessiblePoint_fields w _ c tx ty rfl rfl rfl
  by_cases h0 : (c.findPathFrom w tx ty false).length = 0
  · cases hq : c.findClosestAccessiblePoint w tx ty with
    | none =>
      left
      simp [Character.startPathfinding, e1, e2, h0, hq]
    | some q =>
      right
      refine ⟨q, rfl, ?_⟩
      have e3 : Character.findPathFrom w { c with pathfindingTarget := some ⟨tx, ty⟩ }
          q.x q.y false = c.findPathFrom w q.x q.y false :=
        findPathFrom_fields w _ c q.x q.y false rfl rfl rfl
      simp [Character.startPathfinding, e1, e2, h0, hq, e3]
  · left
    simp [Character.startPathfinding, e1, h0]

/-- **C10** Every non-empty path returned by `findPath` starts with the
mover's cell (paths are start-inclusive), so the first `updatePathfinding`
tick of a fresh session consumes `path[0]` through the current-cell==next
branch — the cursor moves to 1 and no move command is issued; the agent
therefore needs one physical step fewer than the path has cells. -/
theorem findPath_start_inclusive :
    (∀ (grid : Grid) (s t : Cell) (b : Bool) (N : Nat),
      findPath grid s t b N ≠ [] → (findPath grid s t b N).head? = some s) ∧
    (∀ (w : World) (c : Character) (tx ty : Int) (r : Bool) (p : List Cell),
      (c.startPathfinding w tx ty r).pathfindingPath = some p → p ≠ [] →
      p.head? = some ⟨c.x, c.y⟩ ∧
      (c.startPathfinding w tx ty r).updatePathfinding w false =
        ({ c.startPathfinding w tx ty r with
             pathfindingIndex := 1, pathfindingStuckCount := 0 }, none)) := by
  refine ⟨findPath_head, ?_⟩
  intro w c tx ty r p hp hne
  have hhead : p.head? = some ⟨c.x, c.y⟩ := by
    rcases startPathfinding_path_cases w c tx ty r with hcase | ⟨q, _, hcase⟩ <;>
      rw [hp] at hcase <;>
      cases hcase <;>
      exact findPath_head _ ⟨c.x, c.y⟩ _ false w.maxIterations (by simpa using hne)
  have hget : p.getD 0 ⟨0, 0⟩ = ⟨c.x, c.y⟩ := by
    cases p with
    | nil => simp at hne
    | cons a as => simpa using hhead
  refine ⟨hhead, ?_⟩
  have hidx : (c.startPathfinding w tx ty r).pathfindingIndex = 0 := rfl
  have hforc : (c.startPathfinding w tx ty r).forcingThrough = false := rfl
  have hxx : (c.startPathfinding w tx ty r).x = c.x := rfl
  have hyy : (c.startPathfinding w tx ty r).y = c.y := rfl
  have harr := updatePathfinding_arrivalStep w (c.startPathfinding w tx ty r) ⟨tx, ty⟩ p
    rfl hp (by rw [hidx]; exact List.length_pos.mpr hne)
    (by rw [hidx, hget]; exact hxx) (by rw [hidx, hget]; exact hyy)
  rw [harr]
  simp [hforc, hidx]

/-- Witness for `findPath_start_inclusive`: a fresh session from (0, 0) to
(2, 1) on an open 3×3 grid; the returned 4-cell path starts at (0, 0) and
the first tick only advances the cursor. -/
theorem findPath_start_inclusive_witness :
    ([⟨0, 0⟩, ⟨0, 1⟩, ⟨1, 1⟩, ⟨2, 1⟩] : List Cell).head? = some ⟨0, 0⟩ ∧
    (Character.startPathfinding ⟨freeGrid 3 3, 30, true⟩
        ⟨0, 0, false, none, none, 0, true, 0, false, false⟩ 2 1 true).updatePathfinding
        ⟨freeGrid 3 3, 30, true⟩ false =
      ({ Character.startPathfinding ⟨freeGrid 3 3, 30, true⟩
           ⟨0, 0, false, none, none, 0, true, 0, false, false⟩ 2 1 true with
           pathfindingIndex := 1, pathfindingStuckCount := 0 }, none) :=
  findPath_start_inclusive.2 ⟨freeGrid 3 3, 30, true⟩
    ⟨0, 0, false, none, none, 0, true, 0, false, false⟩ 2 1 true
    [⟨0, 0⟩, ⟨0, 1⟩, ⟨1, 1⟩, ⟨2, 1⟩] (by decide) (by decide)

theorem ringOffsets_mem (radius : Nat) (d : Int × Int) :
    d ∈ ringOffsets radius ↔ d.1.natAbs + d.2.natAbs = radius := by
  constructor
  · intro h
    simp only [ringOffsets, List.mem_flatMap, List.mem_filterMap, List.mem_range] at h
    obtain ⟨i, hi, j, hj, hd⟩ := h
    split at hd
    · rename_i hsum
      cases hd
      exact hsum
    · simp at hd
  · intro hsum
    have hi : (d.1 + radius).toNat ∈ List.range (2 * radius + 1) :=
      List.mem_range.mpr (by omega)
    have hj : (d.2 + radius).toNat ∈ List.range (2 * radius + 1) :=
      List.mem_range.mpr (by omega)
    refine List.mem_flatMap.mpr ⟨(d.1 + radius).toNat, hi, ?_⟩
    refine List.mem_filterMap.mpr ⟨(d.2 + radius).toNat, hj, ?_⟩
    show (if ((((d.1 + radius).toNat : Int)) - radius).natAbs +
            ((((d.2 + radius).toNat : Int)) - radius).natAbs = radius then
          some ((((d.1 + radius).toNat : Int)) - radius,
                (((d.2 + radius).toNat : Int)) - radius)
        else none) = some d
    have h1 : (((d.1 + radius).toNat : Int)) - radius = d.1 := by omega
    have h2 : (((d.2 + radius).toNat : Int)) - radius = d.2 := by omega
    rw [h1, h2]
    simp [hsum]

theorem foldl_ringCandidateStep_stable (w : World) (c : Character) (tx ty : Int)
    (q : Cell) (r : Nat) :
    ∀ (l : List (Int × Int)), (∀ d ∈ l, d.1.natAbs + d.2.natAbs = r) →
      l.foldl (ringCandidateStep w c tx ty) (some q, some r) = (some q, some r) := by
  intro l
  induction l with
  | nil => intro _; rfl
  | cons a as ih =>
    intro hsub
    have e1 : tx + a.1 - tx = a.1 := by ring
    have e2 : ty + a.2 - ty = a.2 := by ring
    have hstep : ringCandidateStep w c tx ty (some q, some r) a = (some q, some r) := by
      unfold ringCandidateStep
      simp [e1, e2, hsub a (List.mem_cons_self _ _)]
    rw [List.foldl_cons, hstep]
    exact ih fun d hd => hsub d (List.mem_cons_of_mem _ hd)

theorem foldl_ringCandidateStep_none (w : World) (c : Character) (tx ty : Int) (r : Nat) :
    ∀ (l : List (Int × Int)), (∀ d ∈ l, d.1.natAbs + d.2.natAbs = r) →
      l.foldl (ringCandidateStep w c tx ty) (none, none) =
        match l.find? (fun d => w.grid.inBounds (tx + d.1) (ty + d.2) &&
            decide (0 < (c.findPathFrom w (tx + d.1) (ty + d.2) false).length)) with
        | none => (none, none)
        | some d => (some ⟨tx + d.1, ty + d.2⟩, some r) := by
  intro l
  induction l with
  | nil => intro _; rfl
  | cons a as ih =>
    intro hsub
    by_cases ha : (w.grid.inBounds (tx + a.1) (ty + a.2) &&
        decide (0 < (c.findPathFrom w (tx + a.1) (ty + a.2) false).length)) = true
    · have e1 : tx + a.1 - tx = a.1 := by ring
      have e2 : ty + a.2 - ty = a.2 := by ring
      have ha' := ha
      simp only [Bool.and_eq_true, decide_eq_true_eq] at ha'
      have hstep : ringCandidateStep w c tx ty (none, none) a =
          (some ⟨tx + a.1, ty + a.2⟩, some r) := by
        unfold ringCandidateStep
        simp [ha'.1, ha'.2, e1, e2, hsub a (List.mem_cons_self _ _)]
      rw [List.foldl_cons, hstep,
        foldl_ringCandidateStep_stable w c tx ty _ r as
          (fun d hd => hsub d (List.mem_cons_of_mem _ hd))]
      simp [List.find?_cons, ha]
    · have ha' : (w.grid.inBounds (tx + a.1) (ty + a.2) &&
          decide (0 < (c.findPathFrom w (tx + a.1) (ty + a.2) false).length)) = false := by
        simpa using ha
      have hstep : ringCandidateStep w c tx ty (none, none) a = (none, none) := by
        by_cases h1 : w.grid.inBounds (tx + a.1) (ty + a.2) = true
        · by_cases h2 : 0 < (Character.findPathFrom w c (tx + a.1) (ty + a.2) false).length
          · exact absurd (by simp [h1, h2]) ha
          · simp [ringCandidateStep, h1, h2]
        · simp [ringCandidateStep, h1]
      rw [List.foldl_cons, hstep, ih (fun d hd => hsub d (List.mem_cons_of_mem _ hd))]
      simp [List.find?_cons, ha']

theorem scanRing_none_char (w : World) (c : Character) (tx ty : Int) (r : Nat) :
    scanRing w c tx ty r (none, none) =
      match ringFirstHit w c tx ty r with
      | none => (none, none)
      | some d => (some ⟨tx + d.1, ty + d.2⟩, some r) := by
  unfold scanRing ringFirstHit
  exact foldl_ringCandidateStep_none w c tx ty r (ringOffsets r)
    fun d hd => (ringOffsets_mem r d).mp hd

theorem findClosestLoop_char (w : World) (c : Character) (tx ty : Int) :
    ∀ (n r0 : Nat),
      (findClosestLoop w c tx ty n r0 (none, none) = none ↔
        ∀ i < n, ringFirstHit w c tx ty (r0 + i) = none) ∧
      (∀ p, findClosestLoop w c tx ty n r0 (none, none) = some p →
        ∃ i < n, (∀ j < i, ringFirstHit w c tx ty (r0 + j) = none) ∧
          ∃ d, ringFirstHit w c tx ty (r0 + i) = some d ∧
            p = ⟨tx + d.1, ty + d.2⟩) := by
  intro n
  induction n with
  | zero =>
    intro r0
    exact ⟨by simp [findClosestLoop], by simp [findClosestLoop]⟩
  | succ k ih =>
    intro r0
    have hunf : findClosestLoop w c tx ty (k + 1) r0 (none, none) =
        (match (scanRing w c tx ty r0 (none, none)).1 with
         | some p => some p
         | none => findClosestLoop w c tx ty k (r0 + 1)
             (scanRing w c tx ty r0 (none, none))) := rfl
    cases hh : ringFirstHit w c tx ty r0 with
    | none =>
      have hacc : scanRing w c tx ty r0 (none, none) = (none, none) := by
        rw [scanRing_none_char, hh]
      rw [hunf, hacc]
      constructor
      · rw [(ih (r0 + 1)).1]
        constructor
        · intro hall i hi
          cases i with
          | zero => simpa using hh
          | succ j =>
            have := hall j (by omega)
            simpa [Nat.add_assoc, Nat.add_comm 1 j] using this
        · intro hall i hi
          have := hall (i + 1) (by omega)
          simpa [Nat.add_assoc, Nat.add_comm 1 i] using this
      · intro p hp
        obtain ⟨i, hi, hpre, d, hd, hpd⟩ := (ih (r0 + 1)).2 p hp
        refine ⟨i + 1, by omega, ?_, d, ?_, hpd⟩
        · intro j hj
          cases j with
          | zero => simpa using hh
          | succ jj =>
            have := hpre jj (by omega)
            simpa [Nat.add_assoc, Nat.add_comm 1 jj] using this
        · simpa [Nat.add_assoc, Nat.add_comm 1 i] using hd
    | some d =>
      have hacc : scanRing w c tx ty r0 (none, none) =
          (some ⟨tx + d.1, ty + d.2⟩, some r0) := by
        rw [scanRing_none_char, hh]
      rw [hunf, hacc]
      constructor
      · simp only []
        constructor
        · intro h; cases h
        · intro hall
          have := hall 0 (by omega)
          rw [Nat.add_zero] at this
          rw [hh] at this
          cases this
      · intro p hp
        simp only [] at hp
        cases hp
        exact ⟨0, by omega, by omega, d, by simpa using hh, rfl⟩

theorem ringFirstHit_none_iff (w : World) (c : Character) (tx ty : Int) (r : Nat) :
    ringFirstHit w c tx ty r = none ↔ ¬ringHasReachable w c tx ty r := by
  unfold ringFirstHit ringHasReachable
  rw [List.find?_eq_none]
  constructor
  · intro h ⟨d, hd, hb, hl⟩
    exact h d hd (by simp [hb, hl])
  · intro h d hd hp
    simp only [Bool.and_eq_true, decide_eq_true_eq] at hp
    exact h ⟨d, hd, hp.1, hp.2⟩

/-- **C5** `findClosestAccessiblePoint` scans the Manhattan rings
|dx| + |dy| = radius around the unreachable goal for radius 0 up to the
hard-coded maximum 5, in increasing order, testing each in-bounds candidate
with a full `allowThrough = false` search: it returns `none` exactly when no
ring up to radius 5 holds a reachable in-bounds candidate, and a returned
point always belongs to the first (smallest) radius holding one — no
smaller radius has a reachable candidate, validating that larger rings are
never the source of the answer. -/
theorem findClosestAccessiblePoint_first_ring (w : World) (c : Character) (tx ty : Int) :
    (∀ (radius : Nat) (d : Int × Int),
      d ∈ ringOffsets radius ↔ d.1.natAbs + d.2.natAbs = radius) ∧
    (c.findClosestAccessiblePoint w tx ty = none ↔
      ∀ radius ≤ 5, ¬ringHasReachable w c tx ty radius) ∧
    (∀ p, c.findClosestAccessiblePoint w tx ty = some p →
      ∃ radius ≤ 5, (∀ rr < radius, ¬ringHasReachable w c tx ty rr) ∧
        ∃ d ∈ ringOffsets radius, p = ⟨tx + d.1, ty + d.2⟩ ∧
          w.grid.inBounds p.x p.y = true ∧
          0 < (c.findPathFrom w p.x p.y false).length ∧
          manhattan p ⟨tx, ty⟩ = radius) := by
  have hloop := findClosestLoop_char w c tx ty 6 0
  have hfc : c.findClosestAccessiblePoint w tx ty =
      findClosestLoop w c tx ty 6 0 (none, none) := rfl
  refine ⟨ringOffsets_mem, ?_, ?_⟩
  · rw [hfc, hloop.1]
    constructor
    · intro hall radius hradius
      have := hall radius (by omega)
      rw [Nat.zero_add] at this
      exact (ringFirstHit_none_iff w c tx ty radius).mp this
    · intro hall i hi
      rw [Nat.zero_add]
      exact (ringFirstHit_none_iff w c tx ty i).mpr (hall i (by omega))
  · intro p hp
    obtain ⟨i, hi, hpre, d, hd, hpd⟩ := hloop.2 p (by rw [← hfc]; exact hp)
    rw [Nat.zero_add] at hd
    have hmem : d ∈ ringOffsets i := List.mem_of_find?_eq_some hd
    have hpred := List.find?_some hd
    simp only [Bool.and_eq_true, decide_eq_true_eq] at hpred
    refine ⟨i, by omega, ?_, d, hmem, hpd, ?_, ?_, ?_⟩
    · intro rr hrr
      have := hpre rr (by omega)
      rw [Nat.zero_add] at this
      exact (ringFirstHit_none_iff w c tx ty rr).mp this
    · rw [hpd]
      exact hpred.1
    · rw [hpd]
      exact hpred.2
    · rw [hpd]
      show ((tx + d.1) - tx).natAbs + ((ty + d.2) - ty).natAbs = i
      have e1 : tx + d.1 - tx = d.1 := by ring
      have e2 : ty + d.2 - ty = d.2 := by ring
      rw [e1, e2]
      exact (ringOffsets_mem i d).mp hmem

/-- Witness for `findClosestAccessiblePoint_first_ring`: target (3, 3) just
outside an open 3×3 map; ring 2 is the first holding an in-bounds cell and
the fallback returns its first reachable candidate (2, 2). -/
theorem findClosestAccessiblePoint_first_ring_witness :
    ∃ radius ≤ 5,
      (∀ rr < radius, ¬ringHasReachable ⟨freeGrid 3 3, 30, true⟩
        ⟨0, 0, false, none, none, 0, true, 0, false, false⟩ 3 3 rr) ∧
      ∃ d ∈ ringOffsets radius, (⟨2, 2⟩ : Cell) = ⟨3 + d.1, 3 + d.2⟩ ∧
        (freeGrid 3 3).inBounds (2 : Int) (2 : Int) = true ∧
        0 < (Character.findPathFrom ⟨freeGrid 3 3, 30, true⟩
          ⟨0, 0, false, none, none, 0, true, 0, false, false⟩ 2 2 false).length ∧
        manhattan ⟨2, 2⟩ ⟨3, 3⟩ = radius :=
  (findClosestAccessiblePoint_first_ring ⟨freeGrid 3 3, 30, true⟩
    ⟨0, 0, false, none, none, 0, true, 0, false, false⟩ 3 3).2.2 ⟨2, 2⟩ (by decide)

/-!  ## Manhattan geometry  -/

theorem Cell.eq_iff (a b : Cell) : a = b ↔ a.x = b.x ∧ a.y = b.y := by
  cases a
  cases b
  simp

theorem manhattan_self (a : Cell) : manhattan a a = 0 := by
  unfold manhattan
  omega

theorem manhattan_comm (a b : Cell) : manhattan a b = manhattan b a := by
  unfold manhattan
  omega

theorem manhattan_eq_zero (a b : Cell) : manhattan a b = 0 ↔ a = b := by
  rw [Cell.eq_iff]
  unfold manhattan
  omega

theorem manhattan_triangle (a b c : Cell) :
    manhattan a c ≤ manhattan a b + manhattan b c := by
  unfold manhattan
  omega

theorem stepToward_adj (a b : Cell) (hne : a ≠ b) :
    manhattan a (stepToward a b) = 1 ∧
    manhattan (stepToward a b) b + 1 = manhattan a b := by
  have hcomp : ¬(a.x = b.x ∧ a.y = b.y) := fun hc => hne ((Cell.eq_iff a b).mpr hc)
  unfold stepToward manhattan
  split_ifs with h1 h2 h3 <;> simp only [] <;> constructor <;> omega

theorem stepToward_inBounds (grid : Grid) (a b : Cell) (hne : a ≠ b)
    (ha : grid.inBounds a.x a.y = true) (hb : grid.inBounds b.x b.y = true) :
    grid.inBounds (stepToward a b).x (stepToward a b).y = true := by
  have hcomp : ¬(a.x = b.x ∧ a.y = b.y) := fun hc => hne ((Cell.eq_iff a b).mpr hc)
  simp only [Grid.inBounds, Bool.and_eq_true, decide_eq_true_eq] at ha hb
  unfold stepToward
  split_ifs <;>
    (simp only [Grid.inBounds, Bool.and_eq_true, decide_eq_true_eq]; omega)

/-!  ## Walk lemmas  -/

theorem isWalk_singleton (a : Cell) : IsWalk [a] := trivial

theorem isWalk_append_one : ∀ (l : List Cell) (a b : Cell),
    IsWalk l → l.getLast? = some a → manhattan a b = 1 → IsWalk (l ++ [b]) := by
  intro l
  induction l with
  | nil => intro a b _ hl; simp at hl
  | cons c rest ih =>
    intro a b hw hl hm
    cases rest with
    | nil =>
      simp at hl
      subst hl
      exact ⟨hm, trivial⟩
    | cons d rest2 =>
      obtain ⟨hcd, hw2⟩ := hw
      refine ⟨hcd, ?_⟩
      exact ih a b hw2 (by simpa using hl) hm

theorem walk_manhattan_le : ∀ (l : List Cell) (a b : Cell),
    IsWalk l → l.head? = some a → l.getLast? = some b →
    manhattan a b + 1 ≤ l.length := by
  intro l
  induction l with
  | nil => intro a b _ hh; simp at hh
  | cons c rest ih =>
    intro a b hw hh hl
    simp only [List.head?_cons, Option.some.injEq] at hh
    subst hh
    cases rest with
    | nil =>
      simp at hl
      subst hl
      simp [manhattan_self]
    | cons d rest2 =>
      obtain ⟨hcd, hw2⟩ := hw
      have hrec := ih d b hw2 (by simp) (by simpa using hl)
      have htri := manhattan_triangle c d b
      simp only [List.length_cons] at hrec ⊢
      omega

theorem walk_last_mem : ∀ (l : List Cell) (b : Cell), l.getLast? = some b → b ∈ l := by
  intro l
  induction l with
  | nil => intro b h; simp at h
  | cons a rest ih =>
    intro b h
    cases rest with
    | nil =>
      simp at h
      simp [h]
    | cons d rest2 =>
      have h2 : (d :: rest2).getLast? = some b := by simpa using h
      exact List.mem_cons_of_mem _ (ih b h2)

/-!  ## Open-list operation lemmas for the optimality proof  -/

theorem cellsOf_mem (l : List Node) (q : Cell) :
    q ∈ cellsOf l ↔ ∃ n ∈ l, n.cell = q := by
  simp [cellsOf, List.mem_map]

theorem Node.cell_comp (n : Node) (q : Cell) :
    n.cell = q ↔ n.x = q.x ∧ n.y = q.y :=
  Cell.eq_iff n.cell q

theorem removeNode_sublist : ∀ (l : List Node) (c : Cell),
    List.Sublist (removeNode l c) l := by
  intro l
  induction l with
  | nil => intro c; simp [removeNode]
  | cons a rest ih =>
    intro c
    unfold removeNode
    split
    · exact List.sublist_cons_self a rest
    · exact (ih c).cons₂ a

theorem removeNode_cells_nodup (l : List Node) (c : Cell) (h : (cellsOf l).Nodup) :
    (cellsOf (removeNode l c)).Nodup :=
  List.Nodup.sublist ((removeNode_sublist l c).map Node.cell) h

theorem removeNode_keep : ∀ (l : List Node) (c : Cell) (n : Node),
    n ∈ l → n.cell ≠ c → n ∈ removeNode l c := by
  intro l
  induction l with
  | nil => intro c n h; simp at h
  | cons a rest ih =>
    intro c n hn hne
    unfold removeNode
    rcases List.mem_cons.mp hn with rfl | hn
    · rw [if_neg hne]
      exact List.mem_cons_self _ _
    · split
      · exact hn
      · exact List.mem_cons_of_mem _ (ih c n hn hne)

theorem removeNode_not_cell : ∀ (l : List Node) (c : Cell),
    (cellsOf l).Nodup → c ∉ cellsOf (removeNode l c) := by
  intro l
  induction l with
  | nil => intro c _ h; simp [removeNode, cellsOf] at h
  | cons a rest ih =>
    intro c hnod h
    simp only [cellsOf, List.map_cons, List.nodup_cons] at hnod
    unfold removeNode at h
    split at h
    · rename_i heq
      rw [← heq] at h
      exact hnod.1 h
    · rename_i hne
      simp only [cellsOf, List.map_cons, List.mem_cons] at h
      rcases h with h | h
      · exact hne h.symm
      · exact ih c hnod.2 h

/-- Any node whose fields record one step from a sane node `cur` to an
adjacent in-bounds cell `nb` (`g = cur.g + 1`, `f = g + h(nb)`, parent
chain `cur.path ++ [nb]`) is itself sane. -/
theorem step_node_ok (grid : Grid) (s t : Cell) (cur : Node) (nb : Cell)
    (hcur : NodeOK grid s t cur) (hadj : manhattan cur.cell nb = 1)
    (hb : grid.inBounds nb.x nb.y = true) (m : Node)
    (hmx : m.x = nb.x) (hmy : m.y = nb.y) (hmg : m.g = cur.g + 1)
    (hmf : m.f = cur.g + 1 + manhattan nb t) (hmp : m.path = cur.path ++ [nb]) :
    NodeOK grid s t m := by
  have hnen : cur.path ≠ [] := by
    intro hc
    have hl := hcur.lenOK
    rw [hc] at hl
    simp at hl
  have hmc : m.cell = nb := (Node.cell_comp m nb).mpr ⟨hmx, hmy⟩
  refine ⟨?_, ?_, ?_, ?_, ?_, ?_⟩
  · left
    rw [hmc, hmf, hmg]
  · rw [hmp]
    exact isWalk_append_one cur.path cur.cell nb hcur.walk hcur.lastOK hadj
  · rw [hmp, List.head?_append_of_ne_nil cur.path hnen]
    exact hcur.headOK
  · rw [hmp, hmc]
    exact List.getLast?_concat cur.path
  · rw [hmp, hmg]
    simp [hcur.lenOK]
  · rw [hmp]
    intro q hq
    rcases List.mem_append.mp hq with hq | hq
    · exact hcur.boundsOK q hq
    · simp at hq
      subst hq
      exact hb

theorem relaxFirst_ok (grid : Grid) (s t : Cell) (gv fv : Nat) (p : List Cell) (nb : Cell)
    (hupd : ∀ n : Node, (n.x = nb.x ∧ n.y = nb.y) →
      NodeOK grid s t { n with g := gv, f := fv, path := p }) :
    ∀ (l : List Node), (∀ n ∈ l, NodeOK grid s t n) →
      ∀ n ∈ relaxFirst gv fv p nb l, NodeOK grid s t n := by
  intro l
  induction l with
  | nil => intro _ n h; simp [relaxFirst] at h
  | cons a rest ih =>
    intro hl n h
    unfold relaxFirst at h
    split at h
    · rename_i hmatch
      rcases List.mem_cons.mp h with rfl | h
      · split
        · exact hupd a hmatch
        · exact hl a (List.mem_cons_self _ _)
      · exact hl n (List.mem_cons_of_mem _ h)
    · rcases List.mem_cons.mp h with rfl | h
      · exact hl n (List.mem_cons_self _ _)
      · exact ih (fun m hm => hl m (List.mem_cons_of_mem _ hm)) n h

theorem relaxFirst_cells (gv fv : Nat) (p : List Cell) (nb : Cell) :
    ∀ (l : List Node), cellsOf (relaxFirst gv fv p nb l) = cellsOf l := by
  intro l
  induction l with
  | nil => rfl
  | cons a rest ih =>
    unfold relaxFirst
    split
    · split <;> simp [cellsOf, Node.cell]
    · simp only [cellsOf, List.map_cons]
      exact congrArg (a.cell :: ·) ih

theorem relaxFirst_mono (gv fv : Nat) (p : List Cell) (nb : Cell) (q : Cell) (b0 : Nat) :
    ∀ (l : List Node), (∃ n ∈ l, n.cell = q ∧ n.g ≤ b0) →
      ∃ n ∈ relaxFirst gv fv p nb l, n.cell = q ∧ n.g ≤ b0 := by
  intro l
  induction l with
  | nil => rintro ⟨n, hn, _⟩; simp at hn
  | cons a rest ih =>
    rintro ⟨n, hn, hq, hg⟩
    rcases List.mem_cons.mp hn with rfl | hn
    · unfold relaxFirst
      split
      · split
        · rename_i hlt
          exact ⟨_, List.mem_cons_self _ _, hq, by show gv ≤ b0; omega⟩
        · exact ⟨n, List.mem_cons_self _ _, hq, hg⟩
      · exact ⟨n, List.mem_cons_self _ _, hq, hg⟩
    · unfold relaxFirst
      split
      · exact ⟨n, List.mem_cons_of_mem _ hn, hq, hg⟩
      · obtain ⟨m, hm, hmq, hmg⟩ := ih ⟨n, hn, hq, hg⟩
        exact ⟨m, List.mem_cons_of_mem _ hm, hmq, hmg⟩

theorem relaxFirst_at_cell (gv fv : Nat) (p : List Cell) (nb : Cell) :
    ∀ (l : List Node), (∃ n ∈ l, n.x = nb.x ∧ n.y = nb.y) →
      ∃ n ∈ relaxFirst gv fv p nb l, n.cell = nb ∧ n.g ≤ gv := by
  intro l
  induction l with
  | nil => rintro ⟨n, hn, _⟩; simp at hn
  | cons a rest ih =>
    rintro ⟨n, hn, hmatch⟩
    rcases List.mem_cons.mp hn with rfl | hn
    · unfold relaxFirst
      rw [if_pos hmatch]
      split
      · rename_i hlt
        exact ⟨_, List.mem_cons_self _ _, (Node.cell_comp _ nb).mpr hmatch,
          by show gv ≤ gv; omega⟩
      · rename_i hlt
        exact ⟨n, List.mem_cons_self _ _, (Node.cell_comp n nb).mpr hmatch, by omega⟩
    · unfold relaxFirst
      split
      · rename_i hmatch2
        split
        · exact ⟨_, List.mem_cons_self _ _, (Node.cell_comp _ nb).mpr hmatch2,
            by show gv ≤ gv; omega⟩
        · rename_i hlt
          exact ⟨_, List.mem_cons_self _ _, (Node.cell_comp _ nb).mpr hmatch2, by omega⟩
      · obtain ⟨m, hm, hmq, hmg⟩ := ih ⟨n, hn, hmatch⟩
        exact ⟨m, List.mem_cons_of_mem _ hm, hmq, hmg⟩

theorem any_cell_iff (l : List Node) (nb : Cell) :
    (l.any fun node => node.x == nb.x && node.y == nb.y) = true ↔ nb ∈ cellsOf l := by
  rw [List.any_eq_true, cellsOf_mem]
  constructor
  · rintro ⟨n, hn, hb⟩
    simp only [Bool.and_eq_true, beq_iff_eq] at hb
    exact ⟨n, hn, (Node.cell_comp n nb).mpr hb⟩
  · rintro ⟨n, hn, hc⟩
    obtain ⟨h1, h2⟩ := (Node.cell_comp n nb).mp hc
    exact ⟨n, hn, by simp [h1, h2]⟩

theorem processNeighbor_ok (grid : Grid) (s t : Cell) (cur : Node) (cl o : List Node)
    (nb : Cell) (hcur : NodeOK grid s t cur) (hadj : manhattan cur.cell nb = 1)
    (hb : grid.inBounds nb.x nb.y = true) (ho : ∀ n ∈ o, NodeOK grid s t n) :
    ∀ n ∈ processNeighbor t cur cl o nb, NodeOK grid s t n := by
  intro n h
  unfold processNeighbor at h
  split at h
  · exact ho n h
  · split at h
    · refine relaxFirst_ok grid s t _ _ _ nb ?_ o ho n h
      intro m hm
      exact step_node_ok grid s t cur nb hcur hadj hb _ hm.1 hm.2 rfl rfl rfl
    · rcases List.mem_append.mp h with h | h
      · exact ho n h
      · simp only [List.mem_singleton] at h
        subst h
        exact step_node_ok grid s t cur nb hcur hadj hb _ rfl rfl rfl rfl rfl

theorem processNeighbor_cells_sub (t : Cell) (cur : Node) (cl o : List Node) (nb : Cell) :
    ∀ q ∈ cellsOf (processNeighbor t cur cl o nb),
      q ∈ cellsOf o ∨ (q = nb ∧ q ∉ cellsOf cl) := by
  intro q h
  unfold processNeighbor at h
  split at h
  · exact Or.inl h
  · rename_i hanyc
    have hnbcl : nb ∉ cellsOf cl := by
      intro hc
      rw [← any_cell_iff cl nb] at hc
      exact hanyc hc
    split at h
    · rw [relaxFirst_cells] at h
      exact Or.inl h
    · simp only [cellsOf, List.map_append, List.map_cons, List.map_nil,
        List.mem_append, List.mem_singleton] at h
      rcases h with h | h
      · exact Or.inl h
      · right
        have hqnb : q = nb := h
        exact ⟨hqnb, by rw [hqnb]; exact hnbcl⟩

theorem processNeighbor_nodup (t : Cell) (cur : Node) (cl o : List Node) (nb : Cell)
    (h : (cellsOf o).Nodup) : (cellsOf (processNeighbor t cur cl o nb)).Nodup := by
  unfold processNeighbor
  split
  · exact h
  · split
    · rw [relaxFirst_cells]
      exact h
    · rename_i hany
      have hnb : nb ∉ cellsOf o := fun hc => by
        rw [← any_cell_iff o nb] at hc
        simp [hc] at hany
      simp only [cellsOf, List.map_append, List.map_cons, List.map_nil]
      refine List.Nodup.append h (List.nodup_singleton _) ?_
      intro q hq
      simp only [List.mem_singleton]
      intro hqe
      apply hnb
      have hqnb : q = nb := hqe
      rw [← hqnb]
      exact hq

theorem processNeighbor_mono (t : Cell) (cur : Node) (cl o : List Node) (nb q : Cell)
    (b0 : Nat) (h : ∃ n ∈ o, n.cell = q ∧ n.g ≤ b0) :
    ∃ n ∈ processNeighbor t cur cl o nb, n.cell = q ∧ n.g ≤ b0 := by
  unfold processNeighbor
  split
  · exact h
  · split
    · exact relaxFirst_mono _ _ _ nb q b0 o h
    · obtain ⟨n, hn, hq, hg⟩ := h
      exact ⟨n, List.mem_append_left _ hn, hq, hg⟩

theorem processNeighbor_witness (t : Cell) (cur : Node) (cl o : List Node) (nb : Cell)
    (hnc : nb ∉ cellsOf cl) :
    ∃ n ∈ processNeighbor t cur cl o nb, n.cell = nb ∧ n.g ≤ cur.g + 1 := by
  unfold processNeighbor
  split
  · rename_i hany
    exact absurd ((any_cell_iff cl nb).mp hany) hnc
  · split
    · rename_i hany
      have hex : ∃ n ∈ o, n.x = nb.x ∧ n.y = nb.y := by
        obtain ⟨n, hn, hc⟩ := (cellsOf_mem o nb).mp ((any_cell_iff o nb).mp hany)
        exact ⟨n, hn, (Node.cell_comp n nb).mp hc⟩
      exact relaxFirst_at_cell _ _ _ nb o hex
    · exact ⟨_, List.mem_append_right _ (List.mem_cons_self _ _), rfl, le_refl _⟩

theorem foldl_processNeighbor_ok (grid : Grid) (s t : Cell) (cur : Node) (cl : List Node)
    (hcur : NodeOK grid s t cur) :
    ∀ (nbs : List Cell),
      (∀ nb ∈ nbs, manhattan cur.cell nb = 1 ∧ grid.inBounds nb.x nb.y = true) →
      ∀ (o : List Node), (∀ n ∈ o, NodeOK grid s t n) →
        ∀ n ∈ nbs.foldl (processNeighbor t cur cl) o, NodeOK grid s t n := by
  intro nbs
  induction nbs with
  | nil => intro _ o ho n h; exact ho n h
  | cons b bs ih =>
    intro hval o ho n h
    have hb := hval b (List.mem_cons_self _ _)
    exact ih (fun nb hnb => hval nb (List.mem_cons_of_mem _ hnb)) _
      (processNeighbor_ok grid s t cur cl o b hcur hb.1 hb.2 ho) n h

theorem foldl_processNeighbor_cells_sub (t : Cell) (cur : Node) (cl : List Node) :
    ∀ (nbs : List Cell) (o : List Node) (q : Cell),
      q ∈ cellsOf (nbs.foldl (processNeighbor t cur cl) o) →
      q ∈ cellsOf o ∨ (q ∈ nbs ∧ q ∉ cellsOf cl) := by
  intro nbs
  induction nbs with
  | nil => intro o q h; exact Or.inl h
  | cons b bs ih =>
    intro o q h
    rcases ih _ q h with h | h
    · rcases processNeighbor_cells_sub t cur cl o b q h with h | ⟨h1, h2⟩
      · exact Or.inl h
      · right
        exact ⟨by rw [h1]; exact List.mem_cons_self _ _, h2⟩
    · exact Or.inr ⟨List.mem_cons_of_mem _ h.1, h.2⟩

theorem foldl_processNeighbor_nodup (t : Cell) (cur : Node) (cl : List Node) :
    ∀ (nbs : List Cell) (o : List Node), (cellsOf o).Nodup →
      (cellsOf (nbs.foldl (processNeighbor t cur cl) o)).Nodup := by
  intro nbs
  induction nbs with
  | nil => intro o h; exact h
  | cons b bs ih =>
    intro o h
    exact ih _ (processNeighbor_nodup t cur cl o b h)

theorem foldl_processNeighbor_mono (t : Cell) (cur : Node) (cl : List Node) :
    ∀ (nbs : List Cell) (o : List Node) (q : Cell) (b0 : Nat),
      (∃ n ∈ o, n.cell = q ∧ n.g ≤ b0) →
      ∃ n ∈ nbs.foldl (processNeighbor t cur cl) o, n.cell = q ∧ n.g ≤ b0 := by
  intro nbs
  induction nbs with
  | nil => intro o q b0 h; exact h
  | cons b bs ih =>
    intro o q b0 h
    exact ih _ q b0 (processNeighbor_mono t cur cl o b q b0 h)

theorem foldl_processNeighbor_witness (t : Cell) (cur : Node) (cl : List Node) :
    ∀ (nbs : List Cell) (o : List Node) (nb : Cell), nb ∈ nbs → nb ∉ cellsOf cl →
      ∃ n ∈ nbs.foldl (processNeighbor t cur cl) o, n.cell = nb ∧ n.g ≤ cur.g + 1 := by
  intro nbs
  induction nbs with
  | nil => intro o nb h; simp at h
  | cons b bs ih =>
    intro o nb hmem hnc
    rcases List.mem_cons.mp hmem with rfl | hmem
    · exact foldl_processNeighbor_mono t cur cl bs _ nb (cur.g + 1)
        (processNeighbor_witness t cur cl o nb hnc)
    · exact ih _ nb hmem hnc

theorem getNeighbors_sound (grid : Grid) (a : Cell) (allow : Bool) (nb : Cell)
    (h : nb ∈ getNeighbors grid a allow) :
    manhattan a nb = 1 ∧ grid.inBounds nb.x nb.y = true := by
  obtain ⟨d, hd, rfl, hib, _⟩ := (getNeighbors_mem grid a allow nb).mp h
  refine ⟨?_, hib⟩
  fin_cases hd <;> (unfold manhattan; simp only []; omega)

theorem getNeighbors_complete (grid : Grid) (a : Cell) (allow : Bool) (nb : Cell)
    (hpass : ∀ x y d, grid.isPassable x y d = true)
    (hcan : ∀ x y d, grid.canPass x y d = true)
    (hadj : manhattan a nb = 1) (hib : grid.inBounds nb.x nb.y = true) :
    nb ∈ getNeighbors grid a allow := by
  rw [getNeighbors_mem]
  have hoff : (nb.x = a.x ∧ nb.y = a.y - 1) ∨ (nb.x = a.x + 1 ∧ nb.y = a.y) ∨
      (nb.x = a.x ∧ nb.y = a.y + 1) ∨ (nb.x = a.x - 1 ∧ nb.y = a.y) := by
    unfold manhattan at hadj
    omega
  rcases hoff with ⟨h1, h2⟩ | ⟨h1, h2⟩ | ⟨h1, h2⟩ | ⟨h1, h2⟩
  · refine ⟨(0, -1, 8), by simp [directions], ?_, ?_, by simp [hpass, hcan]⟩
    · rw [Cell.eq_iff]
      constructor <;> simp only [] <;> omega
    · have ex : a.x + (0 : Int) = nb.x := by omega
      have ey : a.y + (-1 : Int) = nb.y := by omega
      rw [ex, ey]
      exact hib
  · refine ⟨(1, 0, 6), by simp [directions], ?_, ?_, by simp [hpass, hcan]⟩
    · rw [Cell.eq_iff]
      constructor <;> simp only [] <;> omega
    · have ex : a.x + (1 : Int) = nb.x := by omega
      have ey : a.y + (0 : Int) = nb.y := by omega
      rw [ex, ey]
      exact hib
  · refine ⟨(0, 1, 2), by simp [directions], ?_, ?_, by simp [hpass, hcan]⟩
    · rw [Cell.eq_iff]
      constructor <;> simp only [] <;> omega
    · have ex : a.x + (0 : Int) = nb.x := by omega
      have ey : a.y + (1 : Int) = nb.y := by omega
      rw [ex, ey]
      exact hib
  · refine ⟨(-1, 0, 4), by simp [directions], ?_, ?_, by simp [hpass, hcan]⟩
    · rw [Cell.eq_iff]
      constructor <;> simp only [] <;> omega
    · have ex : a.x + (-1 : Int) = nb.x := by omega
      have ey : a.y + (0 : Int) = nb.y := by omega
      rw [ex, ey]
      exact hib

theorem nodeOK_g_ge (grid : Grid) (s t : Cell) (n : Node) (h : NodeOK grid s t n) :
    manhattan s n.cell ≤ n.g := by
  have hw := walk_manhattan_le n.path s n.cell h.walk h.headOK h.lastOK
  rw [h.lenOK] at hw
  omega

theorem nodeOK_cell_bounds (grid : Grid) (s t : Cell) (n : Node) (h : NodeOK grid s t n) :
    grid.inBounds n.cell.x n.cell.y = true :=
  h.boundsOK n.cell (walk_last_mem n.path n.cell h.lastOK)

theorem nodeOK_f_le (grid : Grid) (s t : Cell) (n : Node) (h : NodeOK grid s t n) :
    n.f ≤ n.g + manhattan n.cell t := by
  rcases h.fval with he | ⟨_, _, hf⟩
  · omega
  · omega

/-- On an obstacle-free grid, as long as a cell `z` is in bounds and not yet
closed, the open list holds a settled node on a geodesic from the start to
`z` — the frontier always intercepts every shortest path. -/
theorem frontier_exists (grid : Grid) (s t : Cell) (openL closedL : List Node)
    (inv : SearchInv grid s t openL closedL) (hsb : grid.inBounds s.x s.y = true) :
    ∀ (k : Nat) (z : Cell), manhattan s z = k → grid.inBounds z.x z.y = true →
      z ∉ cellsOf closedL →
      ∃ n ∈ openL, n.g = manhattan s n.cell ∧
        n.g + manhattan n.cell z = manhattan s z := by
  intro k
  induction k using Nat.strong_induction_on with
  | _ k ih =>
    intro z hk hzb hznc
    rcases Nat.eq_zero_or_pos k with rfl | hkpos
    · have hzs : z = s := ((manhattan_eq_zero s z).mp hk).symm
      subst hzs
      rcases inv.sAnchor with hcl | ⟨n, hn, hcell, hg⟩
      · exact absurd hcl hznc
      · refine ⟨n, hn, ?_, ?_⟩
        · rw [hcell, hg, manhattan_self]
        · rw [hcell, hg, manhattan_self]
    · have hzs : z ≠ s := by
        intro he
        rw [he, manhattan_self] at hk
        omega
      have hstep := stepToward_adj z s hzs
      have hub : grid.inBounds (stepToward z s).x (stepToward z s).y = true :=
        stepToward_inBounds grid z s hzs hzb hsb
      have hc1 : manhattan z s = manhattan s z := manhattan_comm z s
      have hc2 : manhattan (stepToward z s) s = manhattan s (stepToward z s) :=
        manhattan_comm _ s
      have hmu : manhattan s (stepToward z s) = k - 1 := by omega
      by_cases huc : stepToward z s ∈ cellsOf closedL
      · obtain ⟨mu, hmu_mem, hmu_cell⟩ := (cellsOf_mem closedL (stepToward z s)).mp huc
        have hmuopt := inv.closedOpt mu hmu_mem
        have hadj_uz : manhattan mu.cell z = 1 := by
          rw [hmu_cell, manhattan_comm]
          exact hstep.1
        obtain ⟨n, hn, hncell, hng⟩ := inv.afterClose mu hmu_mem z hadj_uz hzb hznc
        have hnge := nodeOK_g_ge grid s t n (inv.openOK n hn)
        rw [hncell] at hnge
        rw [hmu_cell] at hmuopt
        have hng_eq : n.g = manhattan s z := by omega
        refine ⟨n, hn, ?_, ?_⟩
        · rw [hncell]
          exact hng_eq
        · rw [hncell, manhattan_self]
          omega
      · obtain ⟨n, hn, hopt, heq⟩ := ih (k - 1) (by omega) (stepToward z s) hmu hub huc
        refine ⟨n, hn, hopt, ?_⟩
        have htr1 : manhattan n.cell z ≤
            manhattan n.cell (stepToward z s) + manhattan (stepToward z s) z :=
          manhattan_triangle _ _ _
        have htr2 : manhattan s z ≤ manhattan s n.cell + manhattan n.cell z :=
          manhattan_triangle _ _ _
        have huz : manhattan (stepToward z s) z = 1 := by
          rw [manhattan_comm]
          exact hstep.1
        omega

/-- On an obstacle-free grid the popped node (lowest `f`) is settled: its
`g` equals the true shortest distance from the start. -/
theorem popped_optimal (grid : Grid) (s t : Cell) (first : Node) (rest closedL : List Node)
    (inv : SearchInv grid s t (first :: rest) closedL)
    (hsb : grid.inBounds s.x s.y = true) :
    (lowestF first rest).g = manhattan s (lowestF first rest).cell := by
  have hcmem : lowestF first rest ∈ first :: rest := lowestF_mem rest first
  have hcok := inv.openOK _ hcmem
  have hge := nodeOK_g_ge grid s t _ hcok
  rcases Nat.lt_or_ge (manhattan s (lowestF first rest).cell) (lowestF first rest).g
    with hlt | hge2
  · exfalso
    have hcb := nodeOK_cell_bounds grid s t _ hcok
    have hcnc : (lowestF first rest).cell ∉ cellsOf closedL := by
      rw [cellsOf_mem]
      rintro ⟨m, hm, hmc⟩
      exact inv.disj _ hcmem m hm hmc.symm
    obtain ⟨n, hn, hopt, heq⟩ := frontier_exists grid s t _ _ inv hsb
      (manhattan s (lowestF first rest).cell) (lowestF first rest).cell rfl hcb hcnc
    have hnf := nodeOK_f_le grid s t n (inv.openOK n hn)
    have htr : manhattan n.cell t ≤
        manhattan n.cell (lowestF first rest).cell + manhattan (lowestF first rest).cell t :=
      manhattan_triangle _ _ _
    have hmin := lowestF_le rest first n hn
    rcases hcok.fval with hcf | ⟨hcs, hcg, _⟩
    · omega
    · rw [hcs, manhattan_self] at hlt
      omega
  · omega

/-- One non-goal iteration of the search loop on an obstacle-free grid
preserves the invariant: pop the lowest-`f` node, close it, expand its
neighbors into the open list. -/
theorem searchInv_step (grid : Grid) (s t : Cell) (allow : Bool)
    (hpass : ∀ x y d, grid.isPassable x y d = true)
    (hcan : ∀ x y d, grid.canPass x y d = true)
    (hsb : grid.inBounds s.x s.y = true)
    (first : Node) (rest closedL : List Node)
    (inv : SearchInv grid s t (first :: rest) closedL)
    (hng : ¬((lowestF first rest).x = t.x ∧ (lowestF first rest).y = t.y)) :
    SearchInv grid s t
      ((getNeighbors grid (lowestF first rest).cell allow).foldl
        (processNeighbor t (lowestF first rest) (closedL ++ [lowestF first rest]))
        (removeNode (first :: rest) (lowestF first rest).cell))
      (closedL ++ [lowestF first rest]) := by
  have hcmem : lowestF first rest ∈ first :: rest := lowestF_mem rest first
  have hcok := inv.openOK _ hcmem
  have hcopt := popped_optimal grid s t first rest closedL inv hsb
  have hct : (lowestF first rest).cell ≠ t := fun he => hng ((Node.cell_comp _ t).mp he)
  have hnbs : ∀ nb ∈ getNeighbors grid (lowestF first rest).cell allow,
      manhattan (lowestF first rest).cell nb = 1 ∧ grid.inBounds nb.x nb.y = true :=
    fun nb hnb => getNeighbors_sound grid _ allow nb hnb
  have ho1ok : ∀ n ∈ removeNode (first :: rest) (lowestF first rest).cell,
      NodeOK grid s t n :=
    fun n hn => inv.openOK n (removeNode_mem _ _ n hn)
  have ho1nodup :=
    removeNode_cells_nodup (first :: rest) (lowestF first rest).cell inv.openNodup
  have hcnotino1 :=
    removeNode_not_cell (first :: rest) (lowestF first rest).cell inv.openNodup
  have hccl : (lowestF first rest).cell ∉ cellsOf closedL := by
    rw [cellsOf_mem]
    rintro ⟨m, hm, hmc⟩
    exact inv.disj _ hcmem m hm hmc.symm
  have hclcells : cellsOf (closedL ++ [lowestF first rest]) =
      cellsOf closedL ++ [(lowestF first rest).cell] := by
    simp [cellsOf]
  constructor
  -- openOK
  · exact foldl_processNeighbor_ok grid s t _ _ hcok _ hnbs _ ho1ok
  -- closedOK
  · intro n hn
    rcases List.mem_append.mp hn with hn | hn
    · exact inv.closedOK n hn
    · simp only [List.mem_singleton] at hn
      subst hn
      exact hcok
  -- openNodup
  · exact foldl_processNeighbor_nodup t _ _ _ _ ho1nodup
  -- closedNodup
  · rw [hclcells]
    refine List.Nodup.append inv.closedNodup (List.nodup_singleton _) ?_
    intro q hq
    simp only [List.mem_singleton]
    intro hqe
    apply hccl
    rw [← hqe]
    exact hq
  -- disj
  · intro n hn m hm
    have hcells := foldl_processNeighbor_cells_sub t _ _ _ _ n.cell
      ((cellsOf_mem _ n.cell).mpr ⟨n, hn, rfl⟩)
    rcases hcells with hcl | ⟨_, hnotcl⟩
    · -- n's cell came from the reduced open list
      obtain ⟨n1, hn1, hn1c⟩ := (cellsOf_mem _ n.cell).mp hcl
      have hn1mem := removeNode_mem _ _ n1 hn1
      rcases List.mem_append.mp hm with hm | hm
      · rw [← hn1c]
        exact inv.disj n1 hn1mem m hm
      · simp only [List.mem_singleton] at hm
        subst hm
        intro he
        rw [he] at hcl
        exact hcnotino1 hcl
    · intro he
      apply hnotcl
      rw [he]
      exact (cellsOf_mem _ m.cell).mpr ⟨m, hm, rfl⟩
  -- closedNotGoal
  · intro n hn
    rcases List.mem_append.mp hn with hn | hn
    · exact inv.closedNotGoal n hn
    · simp only [List.mem_singleton] at hn
      subst hn
      exact hct
  -- closedOpt
  · intro n hn
    rcases List.mem_append.mp hn with hn | hn
    · exact inv.closedOpt n hn
    · simp only [List.mem_singleton] at hn
      subst hn
      exact hcopt
  -- afterClose
  · intro m hm nb hadj hnbb hnbnc
    have hnbncl : nb ∉ cellsOf closedL := by
      intro hc
      apply hnbnc
      rw [hclcells]
      exact List.mem_append_left _ hc
    rcases List.mem_append.mp hm with hm | hm
    · obtain ⟨n, hn, hncell, hng1⟩ := inv.afterClose m hm nb hadj hnbb hnbncl
      have hnc : n.cell ≠ (lowestF first rest).cell := by
        rw [hncell]
        intro he
        apply hnbnc
        rw [hclcells, he]
        exact List.mem_append_right _ (List.mem_cons_self _ _)
      have hno1 : n ∈ removeNode (first :: rest) (lowestF first rest).cell :=
        removeNode_keep _ _ n hn hnc
      exact foldl_processNeighbor_mono t _ _ _ _ nb (m.g + 1) ⟨n, hno1, hncell, hng1⟩
    · simp only [List.mem_singleton] at hm
      subst hm
      have hnbmem : nb ∈ getNeighbors grid (lowestF first rest).cell allow :=
        getNeighbors_complete grid _ allow nb hpass hcan hadj hnbb
      have hnbcl1 : nb ∉ cellsOf (closedL ++ [lowestF first rest]) := hnbnc
      exact foldl_processNeighbor_witness t _ _ _ _ nb hnbmem hnbcl1
  -- sAnchor
  · rcases inv.sAnchor with hcl | ⟨n, hn, hcell, hg0⟩
    · left
      rw [hclcells]
      exact List.mem_append_left _ hcl
    · by_cases hcs : (lowestF first rest).cell = s
      · left
        rw [hclcells, ← hcs]
        exact List.mem_append_right _ (List.mem_cons_self _ _)
      · have hnc : n.cell ≠ (lowestF first rest).cell := by
          rw [hcell]
          exact fun he => hcs he.symm
        have hno1 : n ∈ removeNode (first :: rest) (lowestF first rest).cell :=
          removeNode_keep _ _ n hn hnc
        obtain ⟨n2, hn2, hn2c, hn2g⟩ :=
          foldl_processNeighbor_mono t _ _ _ _ s 0 ⟨n, hno1, hcell, by omega⟩
        right
        exact ⟨n2, hn2, hn2c, by omega⟩

theorem closed_length_lt (grid : Grid) (t : Cell) (closedL : List Node)
    (hnodup : (cellsOf closedL).Nodup)
    (hbounds : ∀ q ∈ cellsOf closedL, grid.inBounds q.x q.y = true)
    (hnt : ∀ q ∈ cellsOf closedL, q ≠ t) (htb : grid.inBounds t.x t.y = true) :
    closedL.length + 1 ≤ grid.width * grid.height := by
  classical
  have hinj : Function.Injective fun p : Nat × Nat => (⟨(p.1 : Int), (p.2 : Int)⟩ : Cell) := by
    intro p q h
    rw [Cell.eq_iff] at h
    simp only [] at h
    obtain ⟨h1, h2⟩ := h
    exact Prod.ext (by exact_mod_cast h1) (by exact_mod_cast h2)
  have hcard : ((Finset.range grid.width ×ˢ Finset.range grid.height).image
      fun p : Nat × Nat => (⟨(p.1 : Int), (p.2 : Int)⟩ : Cell)).card =
      grid.width * grid.height := by
    rw [Finset.card_image_of_injective _ hinj, Finset.card_product,
      Finset.card_range, Finset.card_range]
  have hsubB : ∀ q : Cell, grid.inBounds q.x q.y = true →
      q ∈ (Finset.range grid.width ×ˢ Finset.range grid.height).image
        fun p : Nat × Nat => (⟨(p.1 : Int), (p.2 : Int)⟩ : Cell) := by
    intro q hq
    simp only [Grid.inBounds, Bool.and_eq_true, decide_eq_true_eq] at hq
    rw [Finset.mem_image]
    refine ⟨(q.x.toNat, q.y.toNat), ?_, ?_⟩
    · rw [Finset.mem_product, Finset.mem_range, Finset.mem_range]
      constructor <;> simp only [] <;> omega
    · rw [Cell.eq_iff]
      constructor <;> simp only [] <;> omega
  have hLnodup : (t :: cellsOf closedL).Nodup := by
    rw [List.nodup_cons]
    refine ⟨fun hc => (hnt t hc) rfl, hnodup⟩
  have hsubL : (t :: cellsOf closedL).toFinset ⊆
      (Finset.range grid.width ×ˢ Finset.range grid.height).image
        fun p : Nat × Nat => (⟨(p.1 : Int), (p.2 : Int)⟩ : Cell) := by
    intro q hq
    rw [List.mem_toFinset] at hq
    rcases List.mem_cons.mp hq with rfl | hq
    · exact hsubB q htb
    · exact hsubB q (hbounds q hq)
  have hlen : (t :: cellsOf closedL).toFinset.card = closedL.length + 1 := by
    rw [List.toFinset_card_of_nodup hLnodup]
    simp [cellsOf]
  have := Finset.card_le_card hsubL
  rw [hlen, hcard] at this
  exact this

/-- The search loop on an obstacle-free grid, run with enough fuel from any
invariant-satisfying state, pops the goal with a settled node: the result
is a 4-connected walk from start to goal of exactly
`manhattan start goal + 1` cells. -/
theorem findPathLoop_free (grid : Grid) (s t : Cell) (allow : Bool)
    (hpass : ∀ x y d, grid.isPassable x y d = true)
    (hcan : ∀ x y d, grid.canPass x y d = true)
    (hsb : grid.inBounds s.x s.y = true) (htb : grid.inBounds t.x t.y = true) :
    ∀ (fuel : Nat) (openL closedL : List Node),
      SearchInv grid s t openL closedL →
      grid.width * grid.height ≤ fuel + closedL.length →
      (findPathLoop grid t allow fuel openL closedL).length = manhattan s t + 1 ∧
      (findPathLoop grid t allow fuel openL closedL).head? = some s ∧
      (findPathLoop grid t allow fuel openL closedL).getLast? = some t ∧
      IsWalk (findPathLoop grid t allow fuel openL closedL) := by
  intro fuel
  induction fuel with
  | zero =>
    intro openL closedL inv hfuel
    exfalso
    have hb : ∀ q ∈ cellsOf closedL, grid.inBounds q.x q.y = true := by
      intro q hq
      obtain ⟨n, hn, rfl⟩ := (cellsOf_mem closedL q).mp hq
      exact nodeOK_cell_bounds grid s t n (inv.closedOK n hn)
    have hnt : ∀ q ∈ cellsOf closedL, q ≠ t := by
      intro q hq
      obtain ⟨n, hn, rfl⟩ := (cellsOf_mem closedL q).mp hq
      exact inv.closedNotGoal n hn
    have hcard := closed_length_lt grid t closedL inv.closedNodup hb hnt htb
    have hlen : cellsOf closedL = List.map Node.cell closedL := rfl
    omega
  | succ k ih =>
    intro openL closedL inv hfuel
    cases openL with
    | nil =>
      exfalso
      have htnc : t ∉ cellsOf closedL := by
        rw [cellsOf_mem]
        rintro ⟨n, hn, hnc⟩
        exact inv.closedNotGoal n hn hnc
      obtain ⟨n, hn, _⟩ := frontier_exists grid s t [] closedL inv hsb
        (manhattan s t) t rfl htb htnc
      simp at hn
    | cons first rest =>
      by_cases hgoal : ((lowestF first rest).x = t.x ∧ (lowestF first rest).y = t.y)
      · have hret : findPathLoop grid t allow (k + 1) (first :: rest) closedL =
            (lowestF first rest).path := by
          simp only [findPathLoop]
          rw [if_pos hgoal]
        have hcok := inv.openOK _ (lowestF_mem rest first)
        have hcopt := popped_optimal grid s t first rest closedL inv hsb
        have hcell : (lowestF first rest).cell = t := (Node.cell_comp _ t).mpr hgoal
        rw [hret]
        refine ⟨?_, hcok.headOK, ?_, hcok.walk⟩
        · rw [hcok.lenOK, hcopt, hcell]
        · rw [hcok.lastOK, hcell]
      · have hrec : findPathLoop grid t allow (k + 1) (first :: rest) closedL =
            findPathLoop grid t allow k
              ((getNeighbors grid (lowestF first rest).cell allow).foldl
                (processNeighbor t (lowestF first rest)
                  (closedL ++ [lowestF first rest]))
                (removeNode (first :: rest) (lowestF first rest).cell))
              (closedL ++ [lowestF first rest]) := by
          simp only [findPathLoop]
          rw [if_neg hgoal]
        rw [hrec]
        refine ih _ _
          (searchInv_step grid s t allow hpass hcan hsb first rest closedL inv hgoal) ?_
        simp only [List.length_append, List.length_cons, List.length_nil]
        omega

/-- **C1** On every obstacle-free rectangular grid (both passability
oracles always true), with in-bounds start and goal and an iteration budget
of at least width*height, `findPath` returns a 4-connected walk whose cell
count is exactly the Manhattan distance plus one — the path is
start-inclusive, so its length as a path (number of steps) is exactly the
Manhattan distance — beginning at the start and ending at the goal. -/
theorem findPath_free_grid_shortest (grid : Grid) (s t : Cell) (allow : Bool) (N : Nat)
    (hpass : ∀ x y d, grid.isPassable x y d = true)
    (hcan : ∀ x y d, grid.canPass x y d = true)
    (hsb : grid.inBounds s.x s.y = true) (htb : grid.inBounds t.x t.y = true)
    (hN : grid.width * grid.height ≤ N) :
    (findPath grid s t allow N).length = manhattan s t + 1 ∧
    (findPath grid s t allow N).head? = some s ∧
    (findPath grid s t allow N).getLast? = some t ∧
    IsWalk (findPath grid s t allow N) := by
  have hinit : SearchInv grid s t
      [{ x := s.x, y := s.y, g := 0, h := 0, f := 0, path := [s] }] [] := by
    constructor
    · intro n hn
      simp only [List.mem_singleton] at hn
      subst hn
      refine ⟨Or.inr ⟨rfl, rfl, rfl⟩, trivial, rfl, rfl, rfl, ?_⟩
      intro q hq
      simp only [List.mem_singleton] at hq
      subst hq
      exact hsb
    · intro n hn
      simp at hn
    · simp [cellsOf]
    · simp [cellsOf]
    · intro n _ m hm
      simp at hm
    · intro n hn
      simp at hn
    · intro n hn
      simp at hn
    · intro m hm
      simp at hm
    · right
      exact ⟨_, List.mem_cons_self _ _, rfl, rfl⟩
  exact findPathLoop_free grid s t allow hpass hcan hsb htb N _ [] hinit
    (by simpa using hN)

/-- Witness for `findPath_free_grid_shortest`: the spec's concrete
scenario — 10×10 open grid, mover at (0, 0), goal (5, 7), iteration cap
500: the returned path has 13 cells (12 steps = 5 + 7) and ends at (5, 7). -/
theorem findPath_free_grid_shortest_witness :
    (findPath (freeGrid 10 10) ⟨0, 0⟩ ⟨5, 7⟩ false 500).length = 13 ∧
    (findPath (freeGrid 10 10) ⟨0, 0⟩ ⟨5, 7⟩ false 500).getLast? = some ⟨5, 7⟩ := by
  have h := findPath_free_grid_shortest (freeGrid 10 10) ⟨0, 0⟩ ⟨5, 7⟩ false 500
    (fun _ _ _ => rfl) (fun _ _ _ => rfl) (by decide) (by decide) (by decide)
  exact ⟨h.1, h.2.2.1⟩

end PathFindMove
